import Mathlib

/-!
# PromptX declarative memory: `RememberCommand` / `RecallCommand`

A shallow embedding of the record writer (`RememberCommand.js`) and the record
reader (`RecallCommand.js`).

Strings are lists of characters.  The JavaScript source works on UTF-16 code
units; every character the code inspects (`'-'`, `' '`, `'#'`, `':'`, `'\n'`,
digits, ASCII word characters, the line terminators) lies in the Basic
Multilingual Plane, so on well-formed text a split or a substring test on code
units coincides with the same operation on code points.

`String.prototype.toLowerCase` is the Unicode lower-casing of the JavaScript
runtime; it is not part of the repository, so every definition that calls it
takes it as the parameter `toLowerCase`.
-/

namespace PromptX

/-- A JavaScript string. -/
abbrev Str := List Char

/-! ## String primitives used by the two commands -/

/-- JavaScript `s.startsWith(p)`. -/
def startsWith (s p : Str) : Bool := p.isPrefixOf s

/-- JavaScript `s.includes(sub)`: `sub` occurs in `s` at some position. -/
def includes : Str → Str → Bool
  | [], sub => sub.isEmpty
  | c :: cs, sub => sub.isPrefixOf (c :: cs) || includes cs sub

/-- JavaScript `s.split(sep)` for a one-character separator. -/
def split (sep : Char) : Str → List Str
  | [] => [[]]
  | c :: cs =>
    if c = sep then [] :: split sep cs
    else
      match split sep cs with
      | [] => [[c]]
      | piece :: pieces => (c :: piece) :: pieces

/-- JavaScript `parts.join(sep)`. -/
def join (sep : Str) : List Str → Str
  | [] => []
  | [s] => s
  | s :: t :: rest => s ++ sep ++ join sep (t :: rest)

/-- JavaScript `s.substring(1)`. -/
def substring1 (s : Str) : Str := s.drop 1

/-- JavaScript `String(n)` for a non-negative integer. -/
def natToString (n : Nat) : Str := Nat.toDigits 10 n

/-- JavaScript `s.padStart(2, '0')`. -/
def padStart2 (s : Str) : Str := List.replicate (2 - s.length) '0' ++ s

/-! ## Regular-expression character classes -/

/-- Pattern `\d`. -/
def isDigit (c : Char) : Bool := c.isDigit

/-- Pattern `\w` (no `u` or `i` flag): `[A-Za-z0-9_]`. -/
def isWord (c : Char) : Bool := c.isAlphanum || c == '_'

/-- The characters `.` does not match: LF, CR, U+2028, U+2029. -/
def isLineTerminator (c : Char) : Bool :=
  c == '\n' || c == '\r' || c == Char.ofNat 0x2028 || c == Char.ofNat 0x2029

/-! ## RecallCommand: `parseMemoryLine` -/

/-- A parsed memory, the object literal returned by `parseMemoryLine`. -/
structure MemoryRecord where
  timestamp : Str
  content : Str
  key : Str
  tags : List Str
  source : Str
  deriving DecidableEq, Repr

/-- Match a fixed sequence of one-character classes at the head of the input;
returns the matched text and what follows it. -/
def matchClasses : List (Char → Bool) → Str → Option (Str × Str)
  | [], s => some ([], s)
  | _ :: _, [] => none
  | p :: ps, c :: cs =>
    if p c then
      match matchClasses ps cs with
      | some (m, rest) => some (c :: m, rest)
      | none => none
    else none

/-- The class sequence of `\d{4}\/\d{2}\/\d{2} \d{2}:\d{2}`. -/
def timestampClasses : List (Char → Bool) :=
  [isDigit, isDigit, isDigit, isDigit, (· == '/'), isDigit, isDigit, (· == '/'),
   isDigit, isDigit, (· == ' '), isDigit, isDigit, (· == ':'), isDigit, isDigit]

/-- Pattern `.*?$`: lazily consume characters other than line terminators up to the
end of the input. -/
def matchDotsToEnd : Str → Bool
  | [] => true
  | c :: cs => !isLineTerminator c && matchDotsToEnd cs

/-- Pattern `\w+.*?$`: one word character, then greedily more of them, backtracking
into `.*?$`. -/
def matchWordsThenDots : Str → Bool
  | [] => false
  | c :: cs => isWord c && (matchWordsThenDots cs || matchDotsToEnd cs)

/-- The tail ` (#\w+.*?)$` tried at the current position. -/
def matchTagRun : Str → Bool
  | ' ' :: '#' :: cs => matchWordsThenDots cs
  | _ => false

/-- Pattern `(.*?) (#\w+.*?)$`: the lazy content group tries the tail first and only on
failure consumes one more character (never a line terminator).  Returns the
content group and the tag group. -/
def matchContentTags : Str → Option (Str × Str)
  | [] => none
  | c :: cs =>
    if matchTagRun (c :: cs) then some ([], cs)
    else if isLineTerminator c then none
    else
      match matchContentTags cs with
      | some (content, tagsStr) => some (c :: content, tagsStr)
      | none => none

/-- Pattern `line.match(/^- (\d{4}\/\d{2}\/\d{2} \d{2}:\d{2}) (.*?) (#\w+.*?)$/)`:
the three capture groups, or `none` when the line does not match. -/
def matchLine (line : Str) : Option (Str × Str × Str) :=
  match line with
  | '-' :: ' ' :: r1 =>
    match matchClasses timestampClasses r1 with
    | some (timestamp, ' ' :: r2) =>
      match matchContentTags r2 with
      | some (content, tagsStr) => some (timestamp, content, tagsStr)
      | none => none
    | _ => none
  | _ => none

/-- The category tags that `parseMemoryLine` never picks as the key. -/
def reservedTags : List Str :=
  ["#敏捷开发".toList, "#测试".toList, "#部署".toList, "#前端开发".toList,
   "#后端开发".toList, "#AI".toList, "#最佳实践".toList, "#流程管理".toList,
   "#工具使用".toList, "#其他".toList]

/-- The predicate of `tags.find(...)` in `parseMemoryLine`. -/
def isKeyTag (t : Str) : Bool := !includes t [':'] && !reservedTags.contains t

/-- JavaScript `keyTag ? keyTag.substring(1) : 'unknown'`; the empty string is falsy. -/
def keyOf (keyTag : Option Str) : Str :=
  match keyTag with
  | some t => if t.isEmpty then "unknown".toList else substring1 t
  | none => "unknown".toList

/-- JavaScript `tagsStr.split(' ').filter(t => t.startsWith('#'))`. -/
def tagsOf (tagsStr : Str) : List Str :=
  (split ' ' tagsStr).filter (fun t => startsWith t ['#'])

/-- JavaScript `parseMemoryLine(line)`; `none` is the JavaScript `null`. -/
def parseMemoryLine (line : Str) : Option MemoryRecord :=
  match matchLine line with
  | none => none
  | some (timestamp, content, tagsStr) =>
    let tags := tagsOf tagsStr
    let keyTag := tags.find? isKeyTag
    some { timestamp := timestamp, content := content, key := keyOf keyTag,
           tags := tags, source := keyOf keyTag }

/-! ## RecallCommand: `matchesMemory` and `getAllMemories` -/

/-- JavaScript `matchesMemory(memory, query)`. -/
def matchesMemory (toLowerCase : Str → Str) (memory : MemoryRecord) (query : Str) : Bool :=
  let lowerQuery := toLowerCase query
  includes (toLowerCase memory.content) lowerQuery ||
  includes (toLowerCase memory.key) lowerQuery ||
  memory.tags.any (fun tag => includes (toLowerCase tag) lowerQuery)

/-- The memory file `.promptx/memory/declarative.md` as the two commands see
it: absent, present with a text, or present but failing to be read with the
given error. -/
inductive StoreFile where
  | missing
  | readable (content : Str)
  | unreadable (error : Str)
  deriving DecidableEq, Repr

/-- JavaScript `fs.pathExists(memoryFile)`. -/
def pathExists : StoreFile → Bool
  | .missing => false
  | .readable _ => true
  | .unreadable _ => true

/-- JavaScript `fs.readFile(memoryFile, 'utf-8')`; `Except.error` is a rejected promise. -/
def readFile : StoreFile → Except Str Str
  | .missing => .error "ENOENT".toList
  | .readable content => .ok content
  | .unreadable error => .error error

/-- The `for (const line of lines)` loop of `getAllMemories`; `memories` is the
array built so far, `push` appends at its end.  `!query` holds exactly for the
empty (or absent) query. -/
def scanLines (toLowerCase : Str → Str) (query : Str) :
    List Str → List MemoryRecord → List MemoryRecord
  | [], memories => memories
  | line :: lines, memories =>
    if startsWith line "- ".toList then
      match parseMemoryLine line with
      | some memory =>
        if query.isEmpty || matchesMemory toLowerCase memory query then
          scanLines toLowerCase query lines (memories ++ [memory])
        else scanLines toLowerCase query lines memories
      | none => scanLines toLowerCase query lines memories
    else scanLines toLowerCase query lines memories

/-- What a call of `getAllMemories` leaves behind: the returned array, the
field `lastSearchCount`, and what went to `console.error`. -/
structure RecallResult where
  memories : List MemoryRecord
  lastSearchCount : Nat
  errorLog : List Str
  deriving DecidableEq, Repr

/-- The body of the `try` block of `getAllMemories`. -/
def readMemories (toLowerCase : Str → Str) (file : StoreFile) (query : Str) :
    Except Str (List MemoryRecord) :=
  if pathExists file then
    match readFile file with
    | .ok content => .ok (scanLines toLowerCase query (split '\n' content) [])
    | .error e => .error e
  else .ok []

/-- JavaScript `getAllMemories(query)`: the `catch` logs the error and falls through, so
the function returns `memories` as it stands (still empty when the read
throws).  `Except.error` would be a rejected promise. -/
def getAllMemories (toLowerCase : Str → Str) (file : StoreFile) (query : Str) :
    Except Str RecallResult :=
  match readMemories toLowerCase file query with
  | .ok memories =>
    .ok { memories := memories, lastSearchCount := memories.length, errorLog := [] }
  | .error e =>
    .ok { memories := [], lastSearchCount := 0, errorLog := [e] }

/-! ## RememberCommand -/

/-- The fields of `new Date()` that `formatMemoryLine` reads; `month` is
`getMonth()`, counted from 0. -/
structure Clock where
  fullYear : Nat
  month : Nat
  date : Nat
  hours : Nat
  minutes : Nat
  deriving DecidableEq, Repr

/-- The template literal that builds `timestamp` in `formatMemoryLine`. -/
def formatTimestamp (now : Clock) : Str :=
  natToString now.fullYear ++ "/".toList ++ padStart2 (natToString (now.month + 1)) ++
  "/".toList ++ padStart2 (natToString now.date) ++ " ".toList ++
  padStart2 (natToString now.hours) ++ ":".toList ++ padStart2 (natToString now.minutes)

/-- The array `tags` of `generateTags` after the three `if` statements, each of
which pushes one tag when its condition holds. -/
def generateTagList (toLowerCase : Str → Str) (value : Str) : List Str :=
  let lowerValue := toLowerCase value
  (if includes lowerValue "最佳实践".toList || includes lowerValue "规则".toList
    then ["#最佳实践".toList] else []) ++
  (if includes lowerValue "流程".toList || includes lowerValue "步骤".toList
    then ["#流程管理".toList] else []) ++
  (if includes lowerValue "命令".toList || includes lowerValue "工具".toList
    then ["#工具使用".toList] else [])

/-- JavaScript `generateTags(value)`: `tags.join(' ') || '#其他'`. -/
def generateTags (toLowerCase : Str → Str) (value : Str) : Str :=
  let joined := join " ".toList (generateTagList toLowerCase value)
  if joined.isEmpty then "#其他".toList else joined

/-- JavaScript `formatMemoryLine(value)` at the clock reading `now`. -/
def formatMemoryLine (toLowerCase : Str → Str) (now : Clock) (value : Str) : Str :=
  "- ".toList ++ formatTimestamp now ++ " ".toList ++ value ++ " #".toList ++
  generateTags toLowerCase value ++ " #评分:8 #有效期:长期".toList

/-- The text written before the first memory line when the file is created. -/
def fileHeader : Str := "# 陈述性记忆\n\n## 高价值记忆（评分 ≥ 7）\n\n".toList

/-- JavaScript `appendToMemoryFile(memoryFile, memoryLine)`: the file afterwards and the
returned action.  Writes are taken to succeed; a failing read rejects. -/
def appendToMemoryFile (file : StoreFile) (memoryLine : Str) : Except Str (StoreFile × Str) :=
  if !pathExists file then
    .ok (.readable (fileHeader ++ memoryLine ++ "\n\n".toList), "created".toList)
  else
    match readFile file with
    | .ok content =>
      .ok (.readable (content ++ "\n\n".toList ++ memoryLine), "created".toList)
    | .error e => .error e

/-- JavaScript `appendToMemoryFile` called once for each line, in order. -/
def appendAll : StoreFile → List Str → Except Str StoreFile
  | file, [] => .ok file
  | file, memoryLine :: rest =>
    match appendToMemoryFile file memoryLine with
    | .ok (file1, _) => appendAll file1 rest
    | .error e => .error e

/-- An ASCII-only lower-casing, used to instantiate `toLowerCase` on texts whose
only cased letters are ASCII. -/
def asciiLower (s : Str) : Str := s.map Char.toLower

/-- A clock reading: 31 May 2025, 14:30. -/
def sampleClock : Clock :=
  { fullYear := 2025, month := 4, date := 31, hours := 14, minutes := 30 }

/-- The text starts with `#` directly followed by a `\w` character. -/
def startsHashWord : Str → Bool
  | c :: w :: _ => c == '#' && isWord w
  | _ => false

/-- Nowhere in the text is a `#` directly followed by a `\w` character. -/
def noHashWord : Str → Bool
  | [] => true
  | c :: cs => !startsHashWord (c :: cs) && noHashWord cs

/-- The timestamp shape of the record grammar: four digits, `/`, two digits,
`/`, two digits, a space, two digits, `:`, two digits. -/
def isTimestamp : Str → Bool
  | [y1, y2, y3, y4, s1, m1, m2, s2, d1, d2, sp, h1, h2, co, n1, n2] =>
    y1.isDigit && y2.isDigit && y3.isDigit && y4.isDigit && s1 == '/' &&
    m1.isDigit && m2.isDigit && s2 == '/' && d1.isDigit && d2.isDigit && sp == ' ' &&
    h1.isDigit && h2.isDigit && co == ':' && n1.isDigit && n2.isDigit
  | _ => false

/-- A tag token of the record grammar: `#` followed by at least one character,
none of them a space. -/
def isTagToken : Str → Bool
  | '#' :: c :: cs => (c :: cs).all (fun d => d != ' ')
  | _ => false

/-- The record decoded from a line whose tags are `#frontend #评分:8 #有效期:长期`. -/
def sampleRecord : MemoryRecord :=
  { timestamp := "2025/05/31 14:30".toList, content := "note".toList,
    key := "frontend".toList,
    tags := ["#frontend".toList, "#评分:8".toList, "#有效期:长期".toList],
    source := "frontend".toList }

/-- A store of a header, two decodable lines and one malformed line, queried
for `git`. -/
def sampleStore : Str :=
  ("# 陈述性记忆\n\n- 2025/05/31 14:30 Use Git daily #tooling #评分:8\n\n" ++
   "- not a record\n- 2025/06/01 09:00 Write tests #quality #评分:8").toList

/-- The store content with the line `m` put in as an extra line before line
number `i` (counted from 0; after the last line when `i` is past the end). -/
def insertLine (i : Nat) (m content : Str) : Str :=
  join "\n".toList ((split '\n' content).take i ++ m :: (split '\n' content).drop i)

/-! ## Facts about the string primitives -/

theorem includes_iff (s sub : Str) : includes s sub = true ↔ sub <:+: s := by
  induction s with
  | nil =>
    cases sub with
    | nil => simp [includes]
    | cons a t => simp [includes]
  | cons c cs ih =>
    simp only [includes, Bool.or_eq_true, ih, List.isPrefixOf_iff_prefix]
    exact List.infix_cons_iff.symm

theorem includes_singleton (s : Str) (c : Char) : includes s [c] = true ↔ c ∈ s := by
  rw [includes_iff]
  constructor
  · rintro ⟨a, b, h⟩
    have : c ∈ a ++ [c] ++ b := by simp
    rwa [h] at this
  · intro h
    obtain ⟨a, b, rfl⟩ := List.append_of_mem h
    exact ⟨a, b, by simp⟩

theorem includes_nil (s : Str) : includes s [] = true := by
  rw [includes_iff]
  exact List.nil_infix

/-! ## Facts about the regular expression of `parseMemoryLine` -/

theorem isWord_not_lineTerminator (c : Char) (h : isLineTerminator c = true) :
    isWord c = false := by
  simp only [isLineTerminator, Bool.or_eq_true, beq_iff_eq] at h
  rcases h with ((h | h) | h) | h <;> subst h <;> decide

theorem matchClasses_append (ps : List (Char → Bool)) (s m rest : Str)
    (h : matchClasses ps s = some (m, rest)) : s = m ++ rest ∧ m.length = ps.length := by
  induction ps generalizing s m with
  | nil =>
    simp only [matchClasses, Option.some.injEq, Prod.mk.injEq] at h
    obtain ⟨rfl, rfl⟩ := h
    simp
  | cons p ps ih =>
    cases s with
    | nil => simp [matchClasses] at h
    | cons c cs =>
      simp only [matchClasses] at h
      split at h
      · split at h
        · rename_i m1 rest1 h1
          simp only [Option.some.injEq, Prod.mk.injEq] at h
          obtain ⟨rfl, rfl⟩ := h
          obtain ⟨e1, e2⟩ := ih cs m1 h1
          simp [e1, e2]
        · simp at h
      · simp at h

theorem matchWordsThenDots_dots (s : Str) (h : matchWordsThenDots s = true) :
    matchDotsToEnd s = true := by
  induction s with
  | nil => simp [matchWordsThenDots] at h
  | cons c cs ih =>
    simp only [matchWordsThenDots, Bool.and_eq_true, Bool.or_eq_true] at h
    simp only [matchDotsToEnd, Bool.and_eq_true, Bool.not_eq_true']
    refine ⟨?_, ?_⟩
    · cases hlt : isLineTerminator c with
      | false => rfl
      | true => rw [isWord_not_lineTerminator c hlt] at h; simp at h
    · rcases h.2 with h2 | h2
      · exact ih h2
      · exact h2

theorem matchDotsToEnd_iff (s : Str) :
    matchDotsToEnd s = true ↔ ∀ c ∈ s, isLineTerminator c = false := by
  induction s with
  | nil => simp [matchDotsToEnd]
  | cons c cs ih => simp [matchDotsToEnd, ih]

theorem matchWordsThenDots_iff (s : Str) :
    matchWordsThenDots s = true ↔
      ∃ w rest, s = w :: rest ∧ isWord w = true ∧ ∀ c ∈ rest, isLineTerminator c = false := by
  cases s with
  | nil => simp [matchWordsThenDots]
  | cons c cs =>
    constructor
    · intro h
      simp only [matchWordsThenDots, Bool.and_eq_true, Bool.or_eq_true] at h
      obtain ⟨hw, h | h⟩ := h
      · exact ⟨c, cs, rfl, hw, (matchDotsToEnd_iff cs).1 (matchWordsThenDots_dots cs h)⟩
      · exact ⟨c, cs, rfl, hw, (matchDotsToEnd_iff cs).1 h⟩
    · rintro ⟨w, rest, e, hw, h⟩
      simp only [List.cons.injEq] at e
      obtain ⟨rfl, rfl⟩ := e
      simp only [matchWordsThenDots, Bool.and_eq_true, Bool.or_eq_true]
      exact ⟨hw, Or.inr ((matchDotsToEnd_iff _).2 h)⟩

theorem matchTagRun_iff (s : Str) :
    matchTagRun s = true ↔
      ∃ w rest, s = ' ' :: '#' :: w :: rest ∧ isWord w = true ∧
        ∀ c ∈ rest, isLineTerminator c = false := by
  constructor
  · intro h
    unfold matchTagRun at h
    split at h
    · rename_i cs
      obtain ⟨w, rest, rfl, hw, hr⟩ := (matchWordsThenDots_iff cs).1 h
      exact ⟨w, rest, rfl, hw, hr⟩
    · simp at h
  · rintro ⟨w, rest, rfl, hw, hr⟩
    simp only [matchTagRun]
    exact (matchWordsThenDots_iff _).2 ⟨w, rest, rfl, hw, hr⟩

/-- What a successful match of `(.*?) (#\w+.*?)$` looks like: the input is the
content, one space, and the tag group; the tag group starts a tag run; the
content holds no line terminator. -/
theorem matchContentTags_some (s content tagsStr : Str)
    (h : matchContentTags s = some (content, tagsStr)) :
    s = content ++ ' ' :: tagsStr ∧ matchTagRun (' ' :: tagsStr) = true ∧
      ∀ c ∈ content, isLineTerminator c = false := by
  induction s generalizing content with
  | nil => simp [matchContentTags] at h
  | cons c cs ih =>
    simp only [matchContentTags] at h
    split at h
    · rename_i hrun
      simp only [Option.some.injEq, Prod.mk.injEq] at h
      obtain ⟨rfl, rfl⟩ := h
      obtain ⟨w, rest, e, hw, hr⟩ := (matchTagRun_iff _).1 hrun
      simp only [List.cons.injEq] at e
      obtain ⟨rfl, rfl⟩ := e
      exact ⟨rfl, hrun, by simp⟩
    · split at h
      · simp at h
      · rename_i hlt
        split at h
        · rename_i content1 tags1 h1
          simp only [Option.some.injEq, Prod.mk.injEq] at h
          obtain ⟨rfl, rfl⟩ := h
          obtain ⟨e, hrun, hc⟩ := ih content1 h1
          refine ⟨by simp [e], hrun, ?_⟩
          intro d hd
          rcases List.mem_cons.1 hd with rfl | hd
          · simpa using hlt
          · exact hc d hd
        · simp at h

theorem matchLine_some (line timestamp content tagsStr : Str)
    (h : matchLine line = some (timestamp, content, tagsStr)) :
    line = '-' :: ' ' :: (timestamp ++ ' ' :: (content ++ ' ' :: tagsStr)) ∧
      timestamp.length = 16 ∧ matchTagRun (' ' :: tagsStr) = true ∧
      ∀ c ∈ content, isLineTerminator c = false := by
  unfold matchLine at h
  split at h
  · rename_i r1
    split at h
    · rename_i ts r2 hts
      split at h
      · rename_i c t hct
        simp only [Option.some.injEq, Prod.mk.injEq] at h
        obtain ⟨rfl, rfl, rfl⟩ := h
        obtain ⟨e1, e2⟩ := matchClasses_append _ _ _ _ hts
        obtain ⟨e3, hrun, hc⟩ := matchContentTags_some _ _ _ hct
        refine ⟨by rw [e1, e3], ?_, hrun, hc⟩
        rw [e2]; rfl
      · simp at h
    · simp at h
  · simp at h

theorem parseMemoryLine_some (line : Str) (r : MemoryRecord)
    (h : parseMemoryLine line = some r) :
    ∃ tagsStr, matchLine line = some (r.timestamp, r.content, tagsStr) ∧
      r.tags = tagsOf tagsStr ∧ r.key = keyOf (r.tags.find? isKeyTag) ∧ r.source = r.key := by
  unfold parseMemoryLine at h
  split at h
  · simp at h
  · rename_i ts content tagsStr hm
    simp only [Option.some.injEq] at h
    subst h
    exact ⟨tagsStr, hm, rfl, rfl, rfl⟩

/-! ## Lines without a `#` followed by a word character never parse -/

theorem noHashWord_cons (c : Char) (cs : Str) :
    noHashWord (c :: cs) = (!startsHashWord (c :: cs) && noHashWord cs) := rfl

theorem startsHashWord_cons_cons (c d : Char) (rest : Str) :
    startsHashWord (c :: d :: rest) = (c == '#' && isWord d) := rfl

theorem startsHashWord_append (c : Char) (cs b : Str)
    (hhead : cs = [] → ∀ d rest, b = d :: rest → isWord d = false)
    (h : startsHashWord (c :: cs) = false) : startsHashWord (c :: (cs ++ b)) = false := by
  cases cs with
  | nil =>
    cases b with
    | nil => rfl
    | cons d rest =>
      rw [List.nil_append, startsHashWord_cons_cons, hhead rfl d rest rfl, Bool.and_false]
  | cons d ds =>
    rw [List.cons_append, startsHashWord_cons_cons]
    rw [startsHashWord_cons_cons] at h
    exact h

theorem noHashWord_append_of_not_mem (a b : Str) (h : '#' ∉ a) :
    noHashWord (a ++ b) = noHashWord b := by
  induction a with
  | nil => rfl
  | cons c cs ih =>
    have hc : (c == '#') = false := by
      rw [beq_eq_false_iff_ne]
      exact fun e => h (by simp [e])
    have hcs : '#' ∉ cs := fun e => h (by simp [e])
    have hs : startsHashWord (c :: (cs ++ b)) = false := by
      cases hcb : cs ++ b with
      | nil => rfl
      | cons d rest => rw [startsHashWord_cons_cons, hc, Bool.false_and]
    rw [List.cons_append, noHashWord_cons, hs, ih hcs, Bool.not_false, Bool.true_and]

theorem noHashWord_append (a b : Str) (ha : noHashWord a = true) (hb : noHashWord b = true)
    (hhead : ∀ d rest, b = d :: rest → isWord d = false) : noHashWord (a ++ b) = true := by
  induction a with
  | nil => simpa using hb
  | cons c cs ih =>
    rw [noHashWord_cons, Bool.and_eq_true, Bool.not_eq_true'] at ha
    rw [List.cons_append, noHashWord_cons, Bool.and_eq_true, Bool.not_eq_true']
    exact ⟨startsHashWord_append c cs b (fun _ => hhead) ha.1, ih ha.2⟩

theorem noHashWord_of_append (a b : Str) (h : noHashWord (a ++ b) = true) :
    noHashWord a = true ∧ noHashWord b = true := by
  induction a with
  | nil => exact ⟨rfl, by simpa using h⟩
  | cons c cs ih =>
    rw [List.cons_append, noHashWord_cons, Bool.and_eq_true, Bool.not_eq_true'] at h
    obtain ⟨ih1, ih2⟩ := ih h.2
    refine ⟨?_, ih2⟩
    rw [noHashWord_cons, Bool.and_eq_true, Bool.not_eq_true']
    refine ⟨?_, ih1⟩
    have h1 := h.1
    cases cs with
    | nil => rfl
    | cons d ds =>
      rw [List.cons_append, startsHashWord_cons_cons] at h1
      rw [startsHashWord_cons_cons]
      exact h1

theorem noHashWord_within (l s : Str) (hl : l <:+: s) (h : noHashWord s = true) :
    noHashWord l = true := by
  obtain ⟨a, b, rfl⟩ := hl
  exact (noHashWord_of_append _ _ (noHashWord_of_append _ _ h).1).2

theorem noHashWord_hashWord (pre rest : Str) (w : Char) (hw : isWord w = true) :
    noHashWord (pre ++ '#' :: w :: rest) = false := by
  induction pre with
  | nil =>
    rw [List.nil_append, noHashWord_cons, startsHashWord_cons_cons, hw]
    rfl
  | cons c cs ih => rw [List.cons_append, noHashWord_cons, ih, Bool.and_false]

/-- A line that `parseMemoryLine` decodes holds a `#` directly followed by a
word character. -/
theorem parseMemoryLine_hashWord (line : Str) (r : MemoryRecord)
    (h : parseMemoryLine line = some r) : noHashWord line = false := by
  obtain ⟨tagsStr, hm, -⟩ := parseMemoryLine_some line r h
  obtain ⟨e, -, hrun, -⟩ := matchLine_some _ _ _ _ hm
  obtain ⟨w, rest, e2, hw, -⟩ := (matchTagRun_iff _).1 hrun
  simp only [List.cons.injEq, true_and] at e2
  subst e2
  have : line = ('-' :: ' ' :: (r.timestamp ++ ' ' :: (r.content ++ [' ']))) ++
      '#' :: w :: rest := by simp [e]
  rw [this]
  exact noHashWord_hashWord _ _ _ hw

theorem parseMemoryLine_none_of_noHashWord (line : Str) (h : noHashWord line = true) :
    parseMemoryLine line = none := by
  cases hp : parseMemoryLine line with
  | none => rfl
  | some r => rw [parseMemoryLine_hashWord line r hp] at h; simp at h

/-! ## What `formatMemoryLine` writes -/

theorem ite_ne_char {p : Prop} [Decidable p] {a b x : Char} (ha : a ≠ x) (hb : b ≠ x) :
    (if p then a else b) ≠ x := by
  split <;> assumption

theorem digitChar_ne_hash (d : Nat) : Nat.digitChar d ≠ '#' := by
  unfold Nat.digitChar
  repeat' apply ite_ne_char
  all_goals decide

theorem toDigitsCore_no_hash (f n : Nat) (acc : List Char) (h : '#' ∉ acc) :
    '#' ∉ Nat.toDigitsCore 10 f n acc := by
  induction f generalizing n acc with
  | zero => simpa [Nat.toDigitsCore] using h
  | succ f ih =>
    have hacc : '#' ∉ Nat.digitChar (n % 10) :: acc := by
      simp only [List.mem_cons, not_or]
      exact ⟨fun e => digitChar_ne_hash _ e.symm, h⟩
    simp only [Nat.toDigitsCore]
    split_ifs
    · exact hacc
    · exact ih _ _ hacc

theorem natToString_no_hash (n : Nat) : '#' ∉ natToString n :=
  toDigitsCore_no_hash _ _ _ (by simp)

theorem padStart2_no_hash (s : Str) (h : '#' ∉ s) : '#' ∉ padStart2 s := by
  unfold padStart2
  simp only [List.mem_append, List.mem_replicate, not_or, not_and]
  exact ⟨fun _ e => by revert e; decide, h⟩

theorem formatTimestamp_no_hash (now : Clock) : '#' ∉ formatTimestamp now := by
  unfold formatTimestamp
  simp only [List.mem_append, not_or]
  refine ⟨⟨⟨⟨⟨⟨⟨⟨natToString_no_hash _, by decide⟩, padStart2_no_hash _ (natToString_no_hash _)⟩,
    by decide⟩, padStart2_no_hash _ (natToString_no_hash _)⟩, by decide⟩,
    padStart2_no_hash _ (natToString_no_hash _)⟩, by decide⟩,
    padStart2_no_hash _ (natToString_no_hash _)⟩

/-- The eight texts `generateTags` can return. -/
theorem generateTags_cases (toLowerCase : Str → Str) (value : Str) :
    generateTags toLowerCase value ∈
      ["#其他".toList, "#工具使用".toList, "#流程管理".toList, "#流程管理 #工具使用".toList,
       "#最佳实践".toList, "#最佳实践 #工具使用".toList, "#最佳实践 #流程管理".toList,
       "#最佳实践 #流程管理 #工具使用".toList] := by
  simp only [generateTags, generateTagList]
  generalize (includes (toLowerCase value) "最佳实践".toList ||
    includes (toLowerCase value) "规则".toList) = b1
  generalize (includes (toLowerCase value) "流程".toList ||
    includes (toLowerCase value) "步骤".toList) = b2
  generalize (includes (toLowerCase value) "命令".toList ||
    includes (toLowerCase value) "工具".toList) = b3
  cases b1 <;> cases b2 <;> cases b3 <;> decide

/-- The tag part of a written line never holds a `#` followed by a word
character, whatever follows it on a new line. -/
theorem tagPart_noHashWord (toLowerCase : Str → Str) (value rest : Str)
    (hrest : noHashWord rest = true) (hhead : ∀ d t, rest = d :: t → isWord d = false) :
    noHashWord ("#".toList ++ generateTags toLowerCase value ++
      " #评分:8 #有效期:长期".toList ++ rest) = true := by
  apply noHashWord_append _ _ _ hrest hhead
  have h := generateTags_cases toLowerCase value
  simp only [List.mem_cons, List.mem_singleton, List.not_mem_nil, or_false] at h
  rcases h with h | h | h | h | h | h | h | h <;> rw [h] <;> decide

theorem formatMemoryLine_noHashWord (toLowerCase : Str → Str) (now : Clock) (value rest : Str)
    (hv : '#' ∉ value) (hrest : noHashWord rest = true)
    (hhead : ∀ d t, rest = d :: t → isWord d = false) :
    noHashWord (formatMemoryLine toLowerCase now value ++ rest) = true := by
  have e : formatMemoryLine toLowerCase now value ++ rest =
      ("- ".toList ++ formatTimestamp now ++ " ".toList ++ value ++ " ".toList) ++
      ("#".toList ++ generateTags toLowerCase value ++ " #评分:8 #有效期:长期".toList ++ rest) := by
    unfold formatMemoryLine
    simp [List.append_assoc]
  rw [e, noHashWord_append_of_not_mem]
  · exact tagPart_noHashWord toLowerCase value rest hrest hhead
  · simp only [List.mem_append, not_or]
    exact ⟨⟨⟨⟨by decide, formatTimestamp_no_hash now⟩, by decide⟩, hv⟩, by decide⟩

/-- C1: the round trip of the record codec fails on the code: for every clock
reading and every content without `#`, `parseMemoryLine` returns `null` on the
line `formatMemoryLine` writes, because no tag of that line starts with `#`
followed by an ASCII word character. -/
theorem parse_format_none (toLowerCase : Str → Str) (now : Clock) (value : Str)
    (hv : '#' ∉ value) :
    parseMemoryLine (formatMemoryLine toLowerCase now value) = none := by
  apply parseMemoryLine_none_of_noHashWord
  have := formatMemoryLine_noHashWord toLowerCase now value [] hv rfl (by simp)
  simpa using this

/-- The round trip at the content `hello`, written at 14:30 on 31 May 2025. -/
theorem parse_format_none_witness :
    '#' ∉ "hello".toList ∧
      formatMemoryLine asciiLower sampleClock "hello".toList =
        "- 2025/05/31 14:30 hello ##其他 #评分:8 #有效期:长期".toList ∧
      parseMemoryLine (formatMemoryLine asciiLower sampleClock "hello".toList) = none :=
  ⟨by decide, by decide, parse_format_none asciiLower sampleClock "hello".toList (by decide)⟩

/-! ## The reader loop -/

theorem split_head_initial (sep : Char) (s : Str) :
    ∃ piece pieces, split sep s = piece :: pieces ∧ piece <+: s := by
  induction s with
  | nil => exact ⟨[], [], rfl, List.prefix_refl _⟩
  | cons c cs ih =>
    obtain ⟨piece, pieces, e, hp⟩ := ih
    by_cases hc : c = sep
    · exact ⟨[], split sep cs, by simp [split, hc], List.nil_prefix⟩
    · refine ⟨c :: piece, pieces, by simp [split, hc, e], ?_⟩
      exact (List.cons_prefix_cons).2 ⟨rfl, hp⟩

theorem split_mem_within (sep : Char) (s l : Str) (h : l ∈ split sep s) : l <:+: s := by
  induction s generalizing l with
  | nil =>
    simp only [split, List.mem_singleton] at h
    subst h
    exact List.infix_refl _
  | cons c cs ih =>
    obtain ⟨piece, pieces, e, hp⟩ := split_head_initial sep cs
    by_cases hc : c = sep
    · simp only [split, hc, if_true, List.mem_cons] at h
      rcases h with rfl | h
      · exact List.nil_infix
      · exact (ih l h).trans (List.suffix_cons c cs).isInfix
    · simp only [split, hc, if_false, e, List.mem_cons] at h
      rcases h with rfl | h
      · exact ((List.cons_prefix_cons).2 ⟨rfl, hp⟩).isInfix
      · have : l ∈ split sep cs := by rw [e]; exact List.mem_cons_of_mem _ h
        exact (ih l this).trans (List.suffix_cons c cs).isInfix

/-- The loop of `getAllMemories` as a filter: the lines that start with `- `,
decoded, those kept that the query admits, pushed after what was there. -/
theorem scanLines_eq (toLowerCase : Str → Str) (query : Str) (lines : List Str)
    (memories : List MemoryRecord) :
    scanLines toLowerCase query lines memories =
      memories ++ (((lines.filter (fun l => startsWith l "- ".toList)).filterMap
        parseMemoryLine).filter
          (fun m => query.isEmpty || matchesMemory toLowerCase m query)) := by
  induction lines generalizing memories with
  | nil => simp [scanLines]
  | cons line lines ih =>
    rw [scanLines]
    by_cases hs : startsWith line "- ".toList = true
    · rw [if_pos hs]
      cases hp : parseMemoryLine line with
      | none => simp only [ih, List.filter_cons, hs, if_true, List.filterMap_cons_none hp]
      | some m =>
        by_cases hq : (query.isEmpty || matchesMemory toLowerCase m query) = true
        · simp only [if_pos hq, ih, List.filter_cons, hs, if_true, List.filterMap_cons_some hp,
            List.append_assoc, List.singleton_append]
        · simp only [if_neg hq, ih, List.filter_cons, hs, if_true, List.filterMap_cons_some hp,
            if_false]
    · rw [if_neg hs, ih]
      simp only [List.filter_cons, hs, if_false, Bool.false_eq_true]

theorem scanLines_none (toLowerCase : Str → Str) (query : Str) (lines : List Str)
    (h : ∀ l ∈ lines, parseMemoryLine l = none) :
    scanLines toLowerCase query lines [] = [] := by
  rw [scanLines_eq, List.nil_append]
  have : (lines.filter (fun l => startsWith l "- ".toList)).filterMap parseMemoryLine = [] := by
    rw [List.filterMap_eq_nil_iff]
    intro l hl
    exact h l (List.mem_filter.1 hl).1
  rw [this]
  rfl

/-- A file in which no `#` is followed by a word character yields no memory. -/
theorem getAllMemories_noHashWord (toLowerCase : Str → Str) (content query : Str)
    (h : noHashWord content = true) :
    getAllMemories toLowerCase (.readable content) query =
      .ok { memories := [], lastSearchCount := 0, errorLog := [] } := by
  have hs : scanLines toLowerCase query (split '\n' content) [] = [] := by
    apply scanLines_none
    intro l hl
    exact parseMemoryLine_none_of_noHashWord l
      (noHashWord_within l content (split_mem_within _ _ _ hl) h)
  simp [getAllMemories, readMemories, pathExists, readFile, hs]

/-- Appending written lines to a file without `#`-word keeps it so. -/
theorem appendAll_noHashWord (toLowerCase : Str → Str) (entries : List (Clock × Str))
    (h : ∀ e ∈ entries, '#' ∉ e.2) (content : Str) (hc : noHashWord content = true) :
    ∃ content1, appendAll (.readable content)
        (entries.map (fun e => formatMemoryLine toLowerCase e.1 e.2)) = .ok (.readable content1) ∧
      noHashWord content1 = true := by
  induction entries generalizing content with
  | nil => exact ⟨content, rfl, hc⟩
  | cons e rest ih =>
    have hstep : noHashWord (content ++ "\n\n".toList ++ formatMemoryLine toLowerCase e.1 e.2)
        = true := by
      rw [List.append_assoc]
      apply noHashWord_append _ _ hc
      · rw [noHashWord_append_of_not_mem _ _ (by decide)]
        have := formatMemoryLine_noHashWord toLowerCase e.1 e.2 [] (h e (by simp)) rfl (by simp)
        simpa using this
      · intro d t hd
        simp only [String.toList, List.cons_append, List.cons.injEq] at hd
        rw [← hd.1]; decide
    obtain ⟨c1, h1, h2⟩ := ih (fun e he => h e (List.mem_cons_of_mem _ he)) _ hstep
    refine ⟨c1, ?_, h2⟩
    simpa [appendAll, appendToMemoryFile, pathExists, readFile] using h1

theorem formatMemoryLine_head (toLowerCase : Str → Str) (now : Clock) (value rest : Str) :
    ∀ d t, formatMemoryLine toLowerCase now value ++ rest = d :: t → isWord d = false := by
  intro d t hd
  simp only [formatMemoryLine, String.toList, List.cons_append, List.append_assoc,
    List.cons.injEq] at hd
  rw [← hd.1]; decide

/-- C2: append monotonicity fails on the code: after appending the written
lines of any non-empty sequence of contents without `#` to a store that did
not exist, `getAllMemories` with the empty query returns no record at all (and
a count of 0), not one record per append.  Same defect as C1: no written line
is accepted by the pattern of `parseMemoryLine`. -/
theorem recall_after_appends_empty (toLowerCase : Str → Str) (entries : List (Clock × Str))
    (hne : entries ≠ []) (h : ∀ e ∈ entries, '#' ∉ e.2) :
    ∃ file result,
      appendAll .missing (entries.map (fun e => formatMemoryLine toLowerCase e.1 e.2)) =
        .ok file ∧
      getAllMemories toLowerCase file [] = .ok result ∧
      result.memories = [] ∧ result.lastSearchCount = 0 ∧
      result.memories.length ≠ entries.length := by
  cases entries with
  | nil => exact absurd rfl hne
  | cons e rest =>
    have hfirst : noHashWord
        (fileHeader ++ formatMemoryLine toLowerCase e.1 e.2 ++ "\n\n".toList) = true := by
      rw [List.append_assoc]
      apply noHashWord_append _ _ (by decide)
      · exact formatMemoryLine_noHashWord toLowerCase e.1 e.2 _ (h e (by simp)) (by decide)
          (by intro d t hd; simp only [String.toList, List.cons.injEq] at hd; rw [← hd.1]; decide)
      · exact formatMemoryLine_head toLowerCase e.1 e.2 _
    obtain ⟨c1, h1, h2⟩ := appendAll_noHashWord toLowerCase rest
      (fun e he => h e (List.mem_cons_of_mem _ he)) _ hfirst
    refine ⟨.readable c1, _, ?_, getAllMemories_noHashWord toLowerCase c1 [] h2, rfl, rfl, ?_⟩
    · simpa [appendAll, appendToMemoryFile, pathExists] using h1
    · simp

/-- Two appends, of `first note` and of `second note`, then the empty query. -/
theorem recall_after_appends_empty_witness :
    ∃ file result,
      appendAll .missing
        ([(sampleClock, "first note".toList), (sampleClock, "second note".toList)].map
          (fun e => formatMemoryLine asciiLower e.1 e.2)) = .ok file ∧
      getAllMemories asciiLower file [] = .ok result ∧
      result.memories = [] ∧ result.lastSearchCount = 0 ∧
      result.memories.length ≠
        [(sampleClock, "first note".toList), (sampleClock, "second note".toList)].length :=
  recall_after_appends_empty asciiLower
    [(sampleClock, "first note".toList), (sampleClock, "second note".toList)]
    (by simp) (by decide)

/-- C3: `matchesMemory(record, query)` is true exactly when the lower-cased
query occurs in the lower-cased content, in the lower-cased key, or in the
lower-cased form of some tag; and, lower-casing the empty text to itself, it
is true of every record for the empty query. -/
theorem matchesMemory_iff (toLowerCase : Str → Str) (hnil : toLowerCase [] = [])
    (memory : MemoryRecord) (query : Str) :
    (matchesMemory toLowerCase memory query = true ↔
      (toLowerCase query <:+: toLowerCase memory.content ∨
       toLowerCase query <:+: toLowerCase memory.key ∨
       ∃ tag ∈ memory.tags, toLowerCase query <:+: toLowerCase tag)) ∧
    matchesMemory toLowerCase memory [] = true := by
  constructor
  · simp only [matchesMemory, Bool.or_eq_true, List.any_eq_true, includes_iff, or_assoc]
  · simp only [matchesMemory, hnil, includes_nil, Bool.true_or]

/-- The matcher on a record with content `Use Git`, key `tooling`, one tag. -/
theorem matchesMemory_iff_witness :
    asciiLower [] = [] ∧
    (matchesMemory asciiLower
        { timestamp := "2025/05/31 14:30".toList, content := "Use Git".toList,
          key := "tooling".toList, tags := ["#tooling".toList], source := "tooling".toList }
        "GIT".toList = true ↔
      (asciiLower "GIT".toList <:+: asciiLower "Use Git".toList ∨
       asciiLower "GIT".toList <:+: asciiLower "tooling".toList ∨
       ∃ tag ∈ ["#tooling".toList], asciiLower "GIT".toList <:+: asciiLower tag)) ∧
    matchesMemory asciiLower
        { timestamp := "2025/05/31 14:30".toList, content := "Use Git".toList,
          key := "tooling".toList, tags := ["#tooling".toList], source := "tooling".toList }
        [] = true :=
  ⟨rfl, matchesMemory_iff asciiLower rfl _ _⟩

/-! ## Key derivation -/

theorem isKeyTag_eq (t : Str) :
    isKeyTag t = decide (':' ∉ t ∧ t ∉ reservedTags) := by
  unfold isKeyTag
  rw [Bool.eq_iff_iff]
  simp only [Bool.and_eq_true, Bool.not_eq_true', decide_eq_true_eq]
  rw [← Bool.not_eq_true, includes_singleton, ← Bool.not_eq_true]
  simp only [List.contains_iff_exists_mem_beq, beq_iff_eq, exists_eq_right']

theorem tagsOf_mem (tagsStr t : Str) (h : t ∈ tagsOf tagsStr) :
    ∃ name, t = '#' :: name := by
  simp only [tagsOf, List.mem_filter, startsWith] at h
  cases t with
  | nil => simp [List.isPrefixOf] at h
  | cons c cs =>
    have := h.2
    simp only [List.isPrefixOf, Bool.and_true, beq_iff_eq] at this
    exact ⟨cs, by rw [this]⟩

/-- C4: for every line that `parseMemoryLine` decodes, the key is the first
tag, in line order, that holds no `:` and is not one of the ten reserved
category tags, with its leading `#` removed, and `unknown` when no tag
qualifies.  The tags `#frontend #评分:8 #有效期:长期` give the key `frontend`;
the tags `#其他 #评分:8` give `unknown`. -/
theorem key_derivation (line : Str) (r : MemoryRecord) (h : parseMemoryLine line = some r) :
    (∀ t, r.tags.find? (fun t => decide (':' ∉ t ∧ t ∉
        (["#敏捷开发".toList, "#测试".toList, "#部署".toList,
        "#前端开发".toList, "#后端开发".toList, "#AI".toList, "#最佳实践".toList,
        "#流程管理".toList, "#工具使用".toList, "#其他".toList] : List Str))) = some t →
      t = '#' :: r.key) ∧
    (r.tags.find? (fun t => decide (':' ∉ t ∧ t ∉
        (["#敏捷开发".toList, "#测试".toList, "#部署".toList,
        "#前端开发".toList, "#后端开发".toList, "#AI".toList, "#最佳实践".toList,
        "#流程管理".toList, "#工具使用".toList, "#其他".toList] : List Str))) = none →
      r.key = "unknown".toList) ∧
    keyOf (["#frontend".toList, "#评分:8".toList, "#有效期:长期".toList].find? isKeyTag) =
      "frontend".toList ∧
    keyOf (["#其他".toList, "#评分:8".toList].find? isKeyTag) = "unknown".toList := by
  obtain ⟨tagsStr, -, htags, hkey, -⟩ := parseMemoryLine_some line r h
  have hfun : (fun t => decide (':' ∉ t ∧ t ∉
        (["#敏捷开发".toList, "#测试".toList, "#部署".toList,
        "#前端开发".toList, "#后端开发".toList, "#AI".toList, "#最佳实践".toList,
        "#流程管理".toList, "#工具使用".toList, "#其他".toList] : List Str))) = isKeyTag :=
    funext fun t => (isKeyTag_eq t).symm
  rw [hfun]
  refine ⟨?_, ?_, by decide, by decide⟩
  · intro t ht
    have hmem : t ∈ tagsOf tagsStr := by
      rw [← htags]
      exact List.mem_of_find?_eq_some ht
    obtain ⟨name, rfl⟩ := tagsOf_mem tagsStr t hmem
    rw [hkey, ht]
    rfl
  · intro hnone
    rw [hkey, hnone]
    rfl

/-- Key derivation on the line `- 2025/05/31 14:30 note #frontend #评分:8 #有效期:长期`. -/
theorem key_derivation_witness :
    parseMemoryLine "- 2025/05/31 14:30 note #frontend #评分:8 #有效期:长期".toList =
      some sampleRecord ∧
    ((∀ t, sampleRecord.tags.find? (fun t => decide (':' ∉ t ∧ t ∉ reservedTags)) = some t →
      t = '#' :: sampleRecord.key) ∧
    (sampleRecord.tags.find? (fun t => decide (':' ∉ t ∧ t ∉ reservedTags)) = none →
      sampleRecord.key = "unknown".toList) ∧
    keyOf (["#frontend".toList, "#评分:8".toList, "#有效期:长期".toList].find? isKeyTag) =
      "frontend".toList ∧
    keyOf (["#其他".toList, "#评分:8".toList].find? isKeyTag) = "unknown".toList) :=
  ⟨by decide,
   key_derivation "- 2025/05/31 14:30 note #frontend #评分:8 #有效期:长期".toList sampleRecord
     (by decide)⟩

/-! ## Which lines the pattern accepts -/

theorem matchClasses_timestamp (ts rest : Str) (h : isTimestamp ts = true) :
    matchClasses timestampClasses (ts ++ rest) = some (ts, rest) := by
  unfold isTimestamp at h
  split at h
  · simp only [Bool.and_eq_true, beq_iff_eq] at h
    obtain ⟨⟨⟨⟨⟨⟨⟨⟨⟨⟨⟨⟨⟨⟨⟨h1, h2⟩, h3⟩, h4⟩, h5⟩, h6⟩, h7⟩, h8⟩, h9⟩, h10⟩, h11⟩, h12⟩, h13⟩,
      h14⟩, h15⟩, h16⟩ := h
    simp [matchClasses, timestampClasses, isDigit, h1, h2, h3, h4, h5, h6, h7, h8, h9, h10,
      h11, h12, h13, h14, h15, h16]
  · simp at h

theorem matchContentTags_accepts (content tagsStr : Str)
    (hc : ∀ c ∈ content, isLineTerminator c = false)
    (hrun : matchTagRun (' ' :: tagsStr) = true) :
    ∃ content1 tagsStr1, matchContentTags (content ++ ' ' :: tagsStr) =
      some (content1, tagsStr1) := by
  induction content with
  | nil => exact ⟨[], tagsStr, by simp [matchContentTags, hrun]⟩
  | cons c cs ih =>
    obtain ⟨c1, t1, e⟩ := ih (fun d hd => hc d (List.mem_cons_of_mem _ hd))
    rw [List.cons_append, matchContentTags]
    split
    · exact ⟨_, _, rfl⟩
    · rw [if_neg (by simp [hc c (by simp)]), e]
      exact ⟨_, _, rfl⟩

/-- C5 as amended: a line `- ` + timestamp + space + content + space + tag
run is decoded whenever the timestamp has the shape `YYYY/MM/DD HH:MM`, the
content and the tag run hold no line terminator (LF, CR, U+2028, U+2029), and
the tag run starts with `#` followed by an ASCII letter, digit or underscore. -/
theorem parse_accepts (timestamp content tagRest : Str) (w : Char)
    (hts : isTimestamp timestamp = true)
    (hc : ∀ c ∈ content, isLineTerminator c = false)
    (hw : isWord w = true)
    (ht : ∀ c ∈ tagRest, isLineTerminator c = false) :
    ∃ r, parseMemoryLine ("- ".toList ++ timestamp ++ " ".toList ++ content ++ " ".toList ++
      '#' :: w :: tagRest) = some r := by
  have hrun : matchTagRun (' ' :: '#' :: w :: tagRest) = true :=
    (matchTagRun_iff _).2 ⟨w, tagRest, rfl, hw, ht⟩
  obtain ⟨c1, t1, e⟩ := matchContentTags_accepts content _ hc hrun
  have hline : "- ".toList ++ timestamp ++ " ".toList ++ content ++ " ".toList ++
      '#' :: w :: tagRest =
      '-' :: ' ' :: (timestamp ++ ' ' :: (content ++ ' ' :: '#' :: w :: tagRest)) := by
    simp [String.toList]
  rw [hline]
  simp [parseMemoryLine, matchLine, matchClasses_timestamp _ _ hts, e]

/-- The amended acceptance at content `hello` and tag run `#demo #评分:8`. -/
theorem parse_accepts_witness :
    ∃ r, parseMemoryLine ("- ".toList ++ "2025/05/31 14:30".toList ++ " ".toList ++
      "hello".toList ++ " ".toList ++ '#' :: 'd' :: "emo #评分:8".toList) = some r :=
  parse_accepts "2025/05/31 14:30".toList "hello".toList "emo #评分:8".toList 'd'
    (by decide) (by decide) (by decide) (by decide)

/-- C5 fails as stated: two lines of the documented grammar are rejected.  The
first is the line the writer leaves for the content `hello` once its doubled
`#` is removed: its first tag `#其他` has no ASCII word character after `#`.
The second holds a carriage return in its content. -/
theorem grammar_line_rejected :
    (isTimestamp "2025/05/31 14:30".toList = true ∧ '\n' ∉ "hello".toList ∧
      (∀ t ∈ ["#其他".toList, "#评分:8".toList, "#有效期:长期".toList], isTagToken t = true) ∧
      parseMemoryLine ("- ".toList ++ "2025/05/31 14:30".toList ++ " ".toList ++
        "hello".toList ++ " ".toList ++
        join " ".toList ["#其他".toList, "#评分:8".toList, "#有效期:长期".toList]) = none) ∧
    (isTimestamp "2025/05/31 14:30".toList = true ∧ '\n' ∉ "a\rb".toList ∧
      (∀ t ∈ ["#demo".toList], isTagToken t = true) ∧
      parseMemoryLine ("- ".toList ++ "2025/05/31 14:30".toList ++ " ".toList ++
        "a\rb".toList ++ " ".toList ++ join " ".toList ["#demo".toList]) = none) := by
  decide

/-! ## File layout -/

/-- C6: the code breaks the one-blank-line layout between the first two
records.  After two appends to a store that did not exist, the file is the
header block (title line, blank line, heading line, blank line), then the
first line, then four line feeds (the creating write already ends the file
with two, and the append puts two more in front of the second line), then the
second line; a third append is separated from the second line by exactly two
line feeds, the layout the store is meant to have.  All calls return
`created`. -/
theorem two_appends_layout (line1 line2 line3 : Str) :
    ∃ file1 file2,
      appendToMemoryFile .missing line1 = .ok (file1, "created".toList) ∧
      appendToMemoryFile file1 line2 = .ok (file2, "created".toList) ∧
      file2 = .readable ("# 陈述性记忆".toList ++ "\n".toList ++ "\n".toList ++
          "## 高价值记忆（评分 ≥ 7）".toList ++ "\n".toList ++ "\n".toList ++
          line1 ++ "\n\n\n\n".toList ++ line2) ∧
      appendToMemoryFile file2 line3 =
        .ok (.readable ("# 陈述性记忆".toList ++ "\n".toList ++ "\n".toList ++
            "## 高价值记忆（评分 ≥ 7）".toList ++ "\n".toList ++ "\n".toList ++
            line1 ++ "\n\n\n\n".toList ++ line2 ++ "\n\n".toList ++ line3),
          "created".toList) := by
  refine ⟨.readable (fileHeader ++ line1 ++ "\n\n".toList),
    .readable (fileHeader ++ line1 ++ "\n\n".toList ++ "\n\n".toList ++ line2), rfl, rfl, ?_, ?_⟩
  · simp [fileHeader, String.toList]
  · simp [appendToMemoryFile, pathExists, readFile, fileHeader, String.toList]

/-- The layout of C6 at the written lines for the contents `a` and `b`: the
file is not the header, the first line, one blank line and the second line;
four line feeds stand between the two lines. -/
theorem two_appends_not_one_blank :
    appendAll .missing [formatMemoryLine asciiLower sampleClock "a".toList,
        formatMemoryLine asciiLower sampleClock "b".toList] =
      .ok (.readable (fileHeader ++ formatMemoryLine asciiLower sampleClock "a".toList ++
        "\n\n\n\n".toList ++ formatMemoryLine asciiLower sampleClock "b".toList)) ∧
    fileHeader ++ formatMemoryLine asciiLower sampleClock "a".toList ++
        "\n\n\n\n".toList ++ formatMemoryLine asciiLower sampleClock "b".toList ≠
      fileHeader ++ formatMemoryLine asciiLower sampleClock "a".toList ++
        "\n\n".toList ++ formatMemoryLine asciiLower sampleClock "b".toList :=
  ⟨by simp [appendAll, appendToMemoryFile, pathExists, readFile], by decide⟩

/-! ## The reader result -/

/-- C7: on an existing, readable store and a non-empty query, `getAllMemories`
returns exactly the lines of the content (split on the line feed) that start
with `- ` and that `parseMemoryLine` decodes, of which those are kept that
`matchesMemory` admits, in file order, and counts them; this list is a
sub-list, order kept, of the result for the empty query. -/
theorem getAllMemories_eq_filter (toLowerCase : Str → Str) (content query : Str)
    (hq : query ≠ []) :
    getAllMemories toLowerCase (.readable content) query =
      .ok { memories :=
              (((split '\n' content).filter (fun l => startsWith l "- ".toList)).filterMap
                parseMemoryLine).filter (fun m => matchesMemory toLowerCase m query),
            lastSearchCount :=
              ((((split '\n' content).filter (fun l => startsWith l "- ".toList)).filterMap
                parseMemoryLine).filter (fun m => matchesMemory toLowerCase m query)).length,
            errorLog := [] } ∧
    ∃ all, getAllMemories toLowerCase (.readable content) [] = .ok all ∧
      all.memories = ((split '\n' content).filter (fun l => startsWith l "- ".toList)).filterMap
        parseMemoryLine ∧
      List.Sublist
        ((((split '\n' content).filter (fun l => startsWith l "- ".toList)).filterMap
          parseMemoryLine).filter (fun m => matchesMemory toLowerCase m query))
        all.memories := by
  have hne : query.isEmpty = false := by
    cases query with
    | nil => exact absurd rfl hq
    | cons c cs => rfl
  constructor
  · simp only [getAllMemories, readMemories, pathExists, readFile, if_true, scanLines_eq,
      List.nil_append, hne, Bool.false_or]
  · refine ⟨_, rfl, ?_, ?_⟩
    · simp only [readMemories, pathExists, readFile, if_true, scanLines_eq, List.nil_append,
        List.isEmpty_nil, Bool.true_or, List.filter_true]
    · simp only [readMemories, pathExists, readFile, if_true, scanLines_eq, List.nil_append,
        List.isEmpty_nil, Bool.true_or, List.filter_true]
      exact List.filter_sublist _

/-- The reader on `sampleStore` with the query `git`: one of the two records. -/
theorem getAllMemories_eq_filter_witness :
    "git".toList ≠ [] ∧
    getAllMemories asciiLower (.readable sampleStore) "git".toList =
      .ok { memories := [{ timestamp := "2025/05/31 14:30".toList,
                           content := "Use Git daily".toList, key := "tooling".toList,
                           tags := ["#tooling".toList, "#评分:8".toList],
                           source := "tooling".toList }],
            lastSearchCount := 1, errorLog := [] } ∧
    ∃ all, getAllMemories asciiLower (.readable sampleStore) [] = .ok all ∧
      all.memories = ((split '\n' sampleStore).filter
        (fun l => startsWith l "- ".toList)).filterMap parseMemoryLine ∧
      List.Sublist
        ((((split '\n' sampleStore).filter (fun l => startsWith l "- ".toList)).filterMap
          parseMemoryLine).filter (fun m => matchesMemory asciiLower m "git".toList))
        all.memories :=
  ⟨by decide,
   (getAllMemories_eq_filter asciiLower sampleStore "git".toList (by decide)).1.trans
     (congrArg Except.ok (by decide)),
   (getAllMemories_eq_filter asciiLower sampleStore "git".toList (by decide)).2⟩

/-! ## Tag derivation and the written line -/

/-- C8: the tags `generateTags` derives from a content form a duplicate-free
list in the order `#最佳实践`, `#流程管理`, `#工具使用`; each is present exactly
when the lower-cased content holds one of its two triggers; the returned text
is these tags joined by single spaces, and it is the single fallback tag
`#其他` exactly when no trigger matches. -/
theorem generateTags_spec (toLowerCase : Str → Str) (value : Str) :
    List.Sublist (generateTagList toLowerCase value)
      ["#最佳实践".toList, "#流程管理".toList, "#工具使用".toList] ∧
    (generateTagList toLowerCase value).Nodup ∧
    ("#最佳实践".toList ∈ generateTagList toLowerCase value ↔
      ("最佳实践".toList <:+: toLowerCase value ∨ "规则".toList <:+: toLowerCase value)) ∧
    ("#流程管理".toList ∈ generateTagList toLowerCase value ↔
      ("流程".toList <:+: toLowerCase value ∨ "步骤".toList <:+: toLowerCase value)) ∧
    ("#工具使用".toList ∈ generateTagList toLowerCase value ↔
      ("命令".toList <:+: toLowerCase value ∨ "工具".toList <:+: toLowerCase value)) ∧
    (split ' ' (generateTags toLowerCase value) =
      if generateTagList toLowerCase value = [] then ["#其他".toList]
      else generateTagList toLowerCase value) ∧
    (generateTags toLowerCase value = "#其他".toList ↔
      generateTagList toLowerCase value = []) ∧
    (generateTagList toLowerCase value = [] ↔
      ¬ (("最佳实践".toList <:+: toLowerCase value ∨ "规则".toList <:+: toLowerCase value) ∨
         ("流程".toList <:+: toLowerCase value ∨ "步骤".toList <:+: toLowerCase value) ∨
         ("命令".toList <:+: toLowerCase value ∨ "工具".toList <:+: toLowerCase value))) := by
  have h1 : ("最佳实践".toList <:+: toLowerCase value ∨ "规则".toList <:+: toLowerCase value) ↔
      (includes (toLowerCase value) "最佳实践".toList ||
        includes (toLowerCase value) "规则".toList) = true := by
    rw [Bool.or_eq_true, includes_iff, includes_iff]
  have h2 : ("流程".toList <:+: toLowerCase value ∨ "步骤".toList <:+: toLowerCase value) ↔
      (includes (toLowerCase value) "流程".toList ||
        includes (toLowerCase value) "步骤".toList) = true := by
    rw [Bool.or_eq_true, includes_iff, includes_iff]
  have h3 : ("命令".toList <:+: toLowerCase value ∨ "工具".toList <:+: toLowerCase value) ↔
      (includes (toLowerCase value) "命令".toList ||
        includes (toLowerCase value) "工具".toList) = true := by
    rw [Bool.or_eq_true, includes_iff, includes_iff]
  rw [h1, h2, h3]
  simp only [generateTags, generateTagList]
  generalize (includes (toLowerCase value) "最佳实践".toList ||
    includes (toLowerCase value) "规则".toList) = b1
  generalize (includes (toLowerCase value) "流程".toList ||
    includes (toLowerCase value) "步骤".toList) = b2
  generalize (includes (toLowerCase value) "命令".toList ||
    includes (toLowerCase value) "工具".toList) = b3
  cases b1 <;> cases b2 <;> cases b3 <;> decide

/-- C9: the written line carries a doubled `#` before the first derived tag:
for every content and clock reading, `generateTags` already returns text that
starts with `#`, and `formatMemoryLine` puts ` #` in front of it, so the line
is `- ` + timestamp + space + content + ` ##` + tag text + ` #评分:8 #有效期:长期`;
for the content `x` it is `- 2025/05/31 14:30 x ##其他 #评分:8 #有效期:长期`. -/
theorem formatMemoryLine_double_hash (toLowerCase : Str → Str) (now : Clock) (value : Str) :
    (∃ name, generateTags toLowerCase value = '#' :: name ∧
      formatMemoryLine toLowerCase now value =
        "- ".toList ++ formatTimestamp now ++ " ".toList ++ value ++ " ##".toList ++ name ++
          " #评分:8 #有效期:长期".toList) ∧
    formatMemoryLine asciiLower sampleClock "x".toList =
      "- 2025/05/31 14:30 x ##其他 #评分:8 #有效期:长期".toList := by
  refine ⟨?_, by decide⟩
  have h := generateTags_cases toLowerCase value
  simp only [List.mem_cons, List.mem_singleton, List.not_mem_nil, or_false] at h
  rcases h with h | h | h | h | h | h | h | h <;>
    exact ⟨_, h.trans rfl, by simp [formatMemoryLine, h, String.toList]⟩

/-- C10 as amended: when the store file exists and reading it fails with an
error, `getAllMemories` does not fail: the error goes to the console and the
result is the empty sequence with a count of 0, for every query. -/
theorem getAllMemories_read_failure (toLowerCase : Str → Str) (file : StoreFile)
    (error query : Str) (hexists : pathExists file = true)
    (hread : readFile file = .error error) :
    getAllMemories toLowerCase file query =
      .ok { memories := [], lastSearchCount := 0, errorLog := [error] } := by
  unfold getAllMemories readMemories
  rw [if_pos hexists, hread]

/-- The amended C10 at a file whose read fails with `EACCES`, query `git`. -/
theorem getAllMemories_read_failure_witness :
    getAllMemories asciiLower (.unreadable "EACCES".toList) "git".toList =
      .ok { memories := [], lastSearchCount := 0, errorLog := ["EACCES".toList] } :=
  getAllMemories_read_failure asciiLower (.unreadable "EACCES".toList) "EACCES".toList
    "git".toList rfl rfl

/-- C10 fails as stated: with a read failing with `EACCES`, the call for the
query `git` returns the empty sequence instead of failing with that error. -/
theorem read_failure_not_propagated :
    pathExists (.unreadable "EACCES".toList) = true ∧
    readFile (.unreadable "EACCES".toList) = .error "EACCES".toList ∧
    getAllMemories asciiLower (.unreadable "EACCES".toList) "git".toList ≠
      .error "EACCES".toList ∧
    getAllMemories asciiLower (.unreadable "EACCES".toList) "git".toList =
      .ok { memories := [], lastSearchCount := 0, errorLog := ["EACCES".toList] } :=
  ⟨rfl, rfl, by simp [getAllMemories, readMemories, pathExists, readFile], rfl⟩

/-! ## The append-only store -/

theorem appendAll_readable_initial (content : Str) (lines : List Str) :
    ∃ content1, appendAll (.readable content) lines = .ok (.readable content1) ∧
      content <+: content1 := by
  induction lines generalizing content with
  | nil => exact ⟨content, rfl, List.prefix_refl _⟩
  | cons l rest ih =>
    obtain ⟨c1, h1, h2⟩ := ih (content ++ "\n\n".toList ++ l)
    refine ⟨c1, ?_, ?_⟩
    · simpa [appendAll, appendToMemoryFile, pathExists, readFile] using h1
    · exact List.IsPrefix.trans ⟨"\n\n".toList ++ l, by simp⟩ h2

/-- C11: appending to an existing store keeps the old content as an exact
initial part of the new content, and the new content ends with the appended
line; hence, from a store that did not exist, after any non-empty sequence of
appends the file begins with the fixed header block. -/
theorem append_only (content line : Str) (lines : List Str) (hne : lines ≠ []) :
    (∃ content1, appendToMemoryFile (.readable content) line =
        .ok (.readable content1, "created".toList) ∧
      content <+: content1 ∧ line <:+ content1) ∧
    (∃ content2, appendAll .missing lines = .ok (.readable content2) ∧
      "# 陈述性记忆\n\n## 高价值记忆（评分 ≥ 7）\n\n".toList <+: content2) := by
  constructor
  · refine ⟨content ++ "\n\n".toList ++ line, rfl, ⟨"\n\n".toList ++ line, by simp⟩,
      ⟨content ++ "\n\n".toList, rfl⟩⟩
  · cases lines with
    | nil => exact absurd rfl hne
    | cons l rest =>
      obtain ⟨c1, h1, h2⟩ := appendAll_readable_initial (fileHeader ++ l ++ "\n\n".toList) rest
      refine ⟨c1, ?_, ?_⟩
      · simpa [appendAll, appendToMemoryFile, pathExists] using h1
      · exact List.IsPrefix.trans ⟨l ++ "\n\n".toList, by simp [fileHeader]⟩ h2

/-- The append-only property at the store `# notes`, the line `- b`, and the
sequence of the two appends `- a`, `- b`. -/
theorem append_only_witness :
    (∃ content1, appendToMemoryFile (.readable "# notes".toList) "- b".toList =
        .ok (.readable content1, "created".toList) ∧
      "# notes".toList <+: content1 ∧ "- b".toList <:+ content1) ∧
    (∃ content2, appendAll .missing ["- a".toList, "- b".toList] = .ok (.readable content2) ∧
      "# 陈述性记忆\n\n## 高价值记忆（评分 ≥ 7）\n\n".toList <+: content2) :=
  append_only "# notes".toList "- b".toList ["- a".toList, "- b".toList] (by simp)

/-- C13: on a store file that does not exist, `getAllMemories` returns the
empty sequence and leaves `lastSearchCount` at 0, for every query, empty or
not; it does not fail and logs nothing. -/
theorem getAllMemories_missing (toLowerCase : Str → Str) (query : Str) :
    getAllMemories toLowerCase .missing query =
      .ok { memories := [], lastSearchCount := 0, errorLog := [] } ∧
    getAllMemories toLowerCase .missing [] =
      .ok { memories := [], lastSearchCount := 0, errorLog := [] } := by
  constructor <;> simp [getAllMemories, readMemories, pathExists]

/-! ## The lazy split of content and tags -/

theorem startsHashWord_iff (t : Str) :
    startsHashWord t = true ↔ ∃ w rest, t = '#' :: w :: rest ∧ isWord w = true := by
  cases t with
  | nil => simp [startsHashWord]
  | cons c cs =>
    cases cs with
    | nil => simp [startsHashWord]
    | cons d ds =>
      rw [startsHashWord_cons_cons, Bool.and_eq_true, beq_iff_eq]
      constructor
      · rintro ⟨rfl, hd⟩
        exact ⟨d, ds, rfl, hd⟩
      · rintro ⟨w, rest, e, hw⟩
        simp only [List.cons.injEq] at e
        obtain ⟨rfl, rfl, -⟩ := e
        exact ⟨rfl, hw⟩

theorem matchContentTags_no_lineTerminator (s content tagsStr : Str)
    (h : matchContentTags s = some (content, tagsStr)) :
    ∀ c ∈ s, isLineTerminator c = false := by
  obtain ⟨e, hrun, hc⟩ := matchContentTags_some s content tagsStr h
  obtain ⟨w, rest, e2, hw, hr⟩ := (matchTagRun_iff _).1 hrun
  simp only [List.cons.injEq, true_and] at e2
  subst e2
  subst e
  intro c hcmem
  simp only [List.mem_append, List.mem_cons] at hcmem
  rcases hcmem with hcm | rfl | rfl | rfl | hcm
  · exact hc c hcm
  · decide
  · decide
  · cases hlt : isLineTerminator c with
    | false => rfl
    | true => rw [isWord_not_lineTerminator c hlt] at hw; simp at hw
  · exact hr c hcm

/-- The content group stops at the first place where a space is followed by
`#` and a word character: it is an initial part of every other such split. -/
theorem matchContentTags_first (s content tagsStr : Str)
    (h : matchContentTags s = some (content, tagsStr)) (content1 tagRun1 : Str)
    (hs : s = content1 ++ ' ' :: tagRun1) (hrun : startsHashWord tagRun1 = true) :
    content <+: content1 := by
  induction s generalizing content content1 with
  | nil => simp [matchContentTags] at h
  | cons x xs ih =>
    have hnl := matchContentTags_no_lineTerminator _ _ _ h
    simp only [matchContentTags] at h
    split at h
    · simp only [Option.some.injEq, Prod.mk.injEq] at h
      rw [← h.1]
      exact List.nil_prefix
    · rename_i hnot
      split at h
      · simp at h
      · split at h
        · rename_i c1 t1 h1
          simp only [Option.some.injEq, Prod.mk.injEq] at h
          obtain ⟨rfl, rfl⟩ := h
          cases content1 with
          | nil =>
            exfalso
            apply hnot
            obtain ⟨w, rest, rfl, hw⟩ := (startsHashWord_iff _).1 hrun
            rw [List.nil_append] at hs
            rw [hs]
            refine (matchTagRun_iff _).2 ⟨w, rest, rfl, hw, ?_⟩
            intro c hc
            apply hnl
            rw [hs]
            simp [hc]
          | cons y ys =>
            simp only [List.cons_append, List.cons.injEq] at hs
            obtain ⟨rfl, hxs⟩ := hs
            exact (List.cons_prefix_cons).2 ⟨rfl, ih c1 h1 ys hxs⟩
        · simp at h

/-- With the content an initial part of another split's content, the other
split's tag run is a final part of the tag group. -/
theorem tagRun_final (content tagsStr content1 tagRun1 : Str)
    (hs : content ++ ' ' :: tagsStr = content1 ++ ' ' :: tagRun1)
    (hp : content <+: content1) : tagRun1 <:+ tagsStr := by
  obtain ⟨d, rfl⟩ := hp
  rw [List.append_assoc] at hs
  have hs2 := List.append_cancel_left hs
  cases d with
  | nil =>
    simp only [List.nil_append, List.cons.injEq, true_and] at hs2
    exact hs2 ▸ List.suffix_refl _
  | cons y ys =>
    simp only [List.cons_append, List.cons.injEq] at hs2
    rw [hs2.2]
    exact ⟨ys ++ [' '], by simp⟩

theorem matchLine_content (line timestamp content tagsStr : Str)
    (h : matchLine line = some (timestamp, content, tagsStr)) :
    ∃ r2, line = '-' :: ' ' :: (timestamp ++ ' ' :: r2) ∧ timestamp.length = 16 ∧
      matchContentTags r2 = some (content, tagsStr) := by
  unfold matchLine at h
  split at h
  · rename_i r1
    split at h
    · rename_i ts r2 hts
      split at h
      · rename_i c t hct
        simp only [Option.some.injEq, Prod.mk.injEq] at h
        obtain ⟨rfl, rfl, rfl⟩ := h
        obtain ⟨e1, e2⟩ := matchClasses_append _ _ _ _ hts
        exact ⟨r2, by rw [e1], by rw [e2]; rfl, hct⟩
      · simp at h
    · simp at h
  · simp at h

/-- The shape of a decoded line and the content-and-tags match behind it. -/
theorem parseMemoryLine_shape (line : Str) (r : MemoryRecord)
    (h : parseMemoryLine line = some r) :
    ∃ tagsStr, line = "- ".toList ++ r.timestamp ++ " ".toList ++ r.content ++ " ".toList ++
        tagsStr ∧
      r.timestamp.length = 16 ∧ r.tags = tagsOf tagsStr ∧
      matchContentTags (r.content ++ ' ' :: tagsStr) = some (r.content, tagsStr) := by
  obtain ⟨tagsStr, hm, htags, -⟩ := parseMemoryLine_some line r h
  obtain ⟨r2, e, hlen, hct⟩ := matchLine_content _ _ _ _ hm
  obtain ⟨e2, -⟩ := matchContentTags_some _ _ _ hct
  subst e2
  exact ⟨tagsStr, by simp [e, String.toList], hlen, htags, hct⟩

/-- C14 as amended: the split is the shortest-content, longest-tag-run one.
For every decoded line, among all ways of writing the text after the timestamp
as content + space + tag run with the tag run starting with `#` and an ASCII
word character, the decoded content is an initial part of (no longer than)
every such content, and every such tag run is a final part of (no longer than)
the decoded tag group. -/
theorem shortest_content_split (line : Str) (r : MemoryRecord)
    (h : parseMemoryLine line = some r) :
    ∃ tagsStr, line = "- ".toList ++ r.timestamp ++ " ".toList ++ r.content ++ " ".toList ++
        tagsStr ∧
      r.tags = tagsOf tagsStr ∧ startsHashWord tagsStr = true ∧
      ∀ content1 tagRun1,
        line = "- ".toList ++ r.timestamp ++ " ".toList ++ content1 ++ " ".toList ++ tagRun1 →
        startsHashWord tagRun1 = true →
        r.content <+: content1 ∧ r.content.length ≤ content1.length ∧
        tagRun1 <:+ tagsStr ∧ tagRun1.length ≤ tagsStr.length := by
  obtain ⟨tagsStr, e, -, htags, hct⟩ := parseMemoryLine_shape line r h
  refine ⟨tagsStr, e, htags, ?_, ?_⟩
  · obtain ⟨-, hrun, -⟩ := matchContentTags_some _ _ _ hct
    obtain ⟨w, rest, e2, hw, -⟩ := (matchTagRun_iff _).1 hrun
    simp only [List.cons.injEq, true_and] at e2
    exact (startsHashWord_iff _).2 ⟨w, rest, e2, hw⟩
  · intro content1 tagRun1 e1 hrun1
    have hs : r.content ++ ' ' :: tagsStr = content1 ++ ' ' :: tagRun1 := by
      rw [e] at e1
      simpa [String.toList, List.append_assoc] using e1
    have hp := matchContentTags_first _ _ _ hct content1 tagRun1 hs hrun1
    have hq := tagRun_final _ _ _ _ hs hp
    exact ⟨hp, hp.length_le, hq, hq.length_le⟩

/-- The amended C14 on the line `- 2025/05/31 14:30 a #x b #y`. -/
theorem shortest_content_split_witness :
    ∃ tagsStr, "- 2025/05/31 14:30 a #x b #y".toList =
        "- ".toList ++ "2025/05/31 14:30".toList ++ " ".toList ++ "a".toList ++ " ".toList ++
        tagsStr ∧
      ["#x".toList, "#y".toList] = tagsOf tagsStr ∧ startsHashWord tagsStr = true ∧
      ∀ content1 tagRun1,
        "- 2025/05/31 14:30 a #x b #y".toList =
          "- ".toList ++ "2025/05/31 14:30".toList ++ " ".toList ++ content1 ++ " ".toList ++
          tagRun1 →
        startsHashWord tagRun1 = true →
        "a".toList <+: content1 ∧ "a".toList.length ≤ content1.length ∧
        tagRun1 <:+ tagsStr ∧ tagRun1.length ≤ tagsStr.length :=
  shortest_content_split "- 2025/05/31 14:30 a #x b #y".toList
    { timestamp := "2025/05/31 14:30".toList, content := "a".toList, key := "x".toList,
      tags := ["#x".toList, "#y".toList], source := "x".toList } (by decide)

/-- C14 fails as stated: the line `- 2025/05/31 14:30 a #x b #y` decodes to the
content `a`, although the split into content `a #x b` and tag run `#y` has a
longer content and a shorter tag run that still starts with a tag token. -/
theorem longest_content_refuted :
    (parseMemoryLine "- 2025/05/31 14:30 a #x b #y".toList).map (fun r => (r.content, r.tags)) =
      some ("a".toList, ["#x".toList, "#y".toList]) ∧
    "- 2025/05/31 14:30 a #x b #y".toList =
      "- ".toList ++ "2025/05/31 14:30".toList ++ " ".toList ++ "a #x b".toList ++
      " ".toList ++ "#y".toList ∧
    startsHashWord "#y".toList = true ∧ isTagToken "#y".toList = true ∧
    "a".toList.length < "a #x b".toList.length := by
  decide

/-- C16: for every decoded line, the timestamp is the 16 characters after
`- `; the content runs from after the following space up to, not including,
the first place where a space is followed by `#` and an ASCII letter, digit or
underscore; and the tags are the pieces, in order, of the rest of the line
(from that `#`) split on single spaces that start with `#`. -/
theorem first_occurrence_split (line : Str) (r : MemoryRecord)
    (h : parseMemoryLine line = some r) :
    ∃ w rest, line = "- ".toList ++ r.timestamp ++ " ".toList ++ r.content ++ " ".toList ++
        '#' :: w :: rest ∧
      r.timestamp.length = 16 ∧ isWord w = true ∧
      (∀ before after w1, isWord w1 = true →
        r.content ++ " ".toList ++ '#' :: w :: rest = before ++ ' ' :: '#' :: w1 :: after →
        r.content <+: before ∧ r.content.length ≤ before.length) ∧
      r.tags = (split ' ' ('#' :: w :: rest)).filter (fun t => startsWith t ['#']) := by
  obtain ⟨tagsStr, e, hlen, htags, hct⟩ := parseMemoryLine_shape line r h
  obtain ⟨-, hrun, -⟩ := matchContentTags_some _ _ _ hct
  obtain ⟨w, rest, e2, hw, -⟩ := (matchTagRun_iff _).1 hrun
  simp only [List.cons.injEq, true_and] at e2
  subst e2
  refine ⟨w, rest, e, hlen, hw, ?_, htags⟩
  intro before after w1 hw1 hs
  have hs1 : r.content ++ ' ' :: '#' :: w :: rest = before ++ ' ' :: ('#' :: w1 :: after) := by
    simpa [String.toList] using hs
  have hp := matchContentTags_first _ _ _ hct before ('#' :: w1 :: after) hs1
    ((startsHashWord_iff _).2 ⟨w1, after, rfl, hw1⟩)
  exact ⟨hp, hp.length_le⟩

/-- The first-occurrence split on the line `- 2025/05/31 14:30 a #x b #y`. -/
theorem first_occurrence_split_witness :
    ∃ w rest, "- 2025/05/31 14:30 a #x b #y".toList =
        "- ".toList ++ "2025/05/31 14:30".toList ++ " ".toList ++ "a".toList ++ " ".toList ++
        '#' :: w :: rest ∧
      "2025/05/31 14:30".toList.length = 16 ∧ isWord w = true ∧
      (∀ before after w1, isWord w1 = true →
        "a".toList ++ " ".toList ++ '#' :: w :: rest = before ++ ' ' :: '#' :: w1 :: after →
        "a".toList <+: before ∧ "a".toList.length ≤ before.length) ∧
      ["#x".toList, "#y".toList] =
        (split ' ' ('#' :: w :: rest)).filter (fun t => startsWith t ['#']) :=
  first_occurrence_split "- 2025/05/31 14:30 a #x b #y".toList
    { timestamp := "2025/05/31 14:30".toList, content := "a".toList, key := "x".toList,
      tags := ["#x".toList, "#y".toList], source := "x".toList } (by decide)

/-! ## The shape of decoded tags -/

theorem split_cons_ne (sep c : Char) (cs : Str) (hc : c ≠ sep) :
    ∃ piece pieces, split sep cs = piece :: pieces ∧
      split sep (c :: cs) = (c :: piece) :: pieces := by
  obtain ⟨piece, pieces, e, -⟩ := split_head_initial sep cs
  exact ⟨piece, pieces, e, by simp [split, hc, e]⟩

theorem split_no_sep (sep : Char) (s p : Str) (h : p ∈ split sep s) : sep ∉ p := by
  induction s generalizing p with
  | nil =>
    simp only [split, List.mem_singleton] at h
    subst h
    simp
  | cons c cs ih =>
    by_cases hc : c = sep
    · simp only [split, hc, if_true, List.mem_cons] at h
      rcases h with rfl | h
      · simp
      · exact ih p h
    · obtain ⟨piece, pieces, e, e2⟩ := split_cons_ne sep c cs hc
      rw [e2, List.mem_cons] at h
      rcases h with rfl | h
      · have := ih piece (by rw [e]; simp)
        simp only [List.mem_cons, not_or]
        exact ⟨fun e3 => hc e3.symm, this⟩
      · exact ih p (by rw [e]; exact List.mem_cons_of_mem _ h)

theorem isWord_ne_space (w : Char) (hw : isWord w = true) : w ≠ ' ' := by
  rintro rfl
  revert hw
  decide

/-- C19: for every decoded line the tags are not empty, every tag starts with
`#` and holds no space, and the first tag is `#` directly followed by an ASCII
letter, digit or underscore. -/
theorem decoded_tags_shape (line : Str) (r : MemoryRecord)
    (h : parseMemoryLine line = some r) :
    r.tags ≠ [] ∧
    (∀ t ∈ r.tags, (∃ name, t = '#' :: name) ∧ ' ' ∉ t) ∧
    ∃ w more others, r.tags = ('#' :: w :: more) :: others ∧ isWord w = true := by
  obtain ⟨tagsStr, -, -, htags, hct⟩ := parseMemoryLine_shape line r h
  obtain ⟨-, hrun, -⟩ := matchContentTags_some _ _ _ hct
  obtain ⟨w, rest, e2, hw, -⟩ := (matchTagRun_iff _).1 hrun
  simp only [List.cons.injEq, true_and] at e2
  subst e2
  obtain ⟨p1, ps1, e1, e1c⟩ := split_cons_ne ' ' w rest (isWord_ne_space w hw)
  obtain ⟨p2, ps2, e3, e3c⟩ := split_cons_ne ' ' '#' (w :: rest) (by decide)
  rw [e1c] at e3
  simp only [List.cons.injEq] at e3
  obtain ⟨rfl, rfl⟩ := e3
  have hfirst : r.tags = ('#' :: w :: p1) ::
      ps1.filter (fun t => startsWith t ['#']) := by
    rw [htags, tagsOf, e3c]
    simp [List.filter_cons, startsWith, List.isPrefixOf]
  refine ⟨by rw [hfirst]; simp, ?_, w, p1, _, hfirst, hw⟩
  intro t ht
  rw [htags] at ht
  refine ⟨tagsOf_mem _ t ht, ?_⟩
  exact split_no_sep ' ' _ t (List.mem_filter.1 ht).1

/-- The tag shape on the line `- 2025/05/31 14:30 a #x b #y`. -/
theorem decoded_tags_shape_witness :
    ["#x".toList, "#y".toList] ≠ [] ∧
    (∀ t ∈ ["#x".toList, "#y".toList], (∃ name, t = '#' :: name) ∧ ' ' ∉ t) ∧
    ∃ w more others, ["#x".toList, "#y".toList] = ('#' :: w :: more) :: others ∧
      isWord w = true :=
  decoded_tags_shape "- 2025/05/31 14:30 a #x b #y".toList
    { timestamp := "2025/05/31 14:30".toList, content := "a".toList, key := "x".toList,
      tags := ["#x".toList, "#y".toList], source := "x".toList } (by decide)

/-! ## Decoding a line whose split is known -/

/-- When the content holds no line terminator and no space followed by `#` and
a word character, the lazy group captures exactly the content. -/
theorem matchContentTags_exact (content tagsStr : Str)
    (hc : ∀ c ∈ content, isLineTerminator c = false)
    (hrun : matchTagRun (' ' :: tagsStr) = true)
    (hno : ∀ before after c, content = before ++ ' ' :: '#' :: c :: after → isWord c = false) :
    matchContentTags (content ++ ' ' :: tagsStr) = some (content, tagsStr) := by
  obtain ⟨c1, t1, e⟩ := matchContentTags_accepts content tagsStr hc hrun
  obtain ⟨hs, hrun1, -⟩ := matchContentTags_some _ _ _ e
  obtain ⟨w0, rest0, e0, hw0, -⟩ := (matchTagRun_iff _).1 hrun
  simp only [List.cons.injEq, true_and] at e0
  have hp := matchContentTags_first _ _ _ e content tagsStr rfl
    ((startsHashWord_iff _).2 ⟨w0, rest0, e0, hw0⟩)
  obtain ⟨w1, rest1, e1, hw1, -⟩ := (matchTagRun_iff _).1 hrun1
  simp only [List.cons.injEq, true_and] at e1
  obtain ⟨d, hd⟩ := hp
  cases d with
  | nil =>
    rw [List.append_nil] at hd
    subst hd
    have := List.append_cancel_left hs
    simp only [List.cons.injEq, true_and] at this
    rw [e, this]
  | cons x xs =>
    exfalso
    rw [← hd, List.append_assoc] at hs
    have h2 := List.append_cancel_left hs
    simp only [List.cons_append, List.cons.injEq] at h2
    obtain ⟨rfl, h3⟩ := h2
    rw [e1] at h3
    cases xs with
    | nil => simp at h3
    | cons y ys =>
      cases ys with
      | nil =>
        simp only [List.cons_append, List.nil_append, List.cons.injEq] at h3
        obtain ⟨-, rfl, -⟩ := h3
        revert hw1
        decide
      | cons z zs =>
        simp only [List.cons_append, List.cons.injEq] at h3
        obtain ⟨rfl, rfl, -⟩ := h3
        have := hno c1 zs z hd.symm
        rw [this] at hw1
        simp at hw1

/-- The record decoded from a line whose timestamp, content and tag group are
known and whose content holds no earlier start of a tag run. -/
theorem parseMemoryLine_exact (timestamp content tagsStr : Str)
    (hts : isTimestamp timestamp = true)
    (hc : ∀ c ∈ content, isLineTerminator c = false)
    (hrun : matchTagRun (' ' :: tagsStr) = true)
    (hno : ∀ before after c, content = before ++ ' ' :: '#' :: c :: after → isWord c = false) :
    parseMemoryLine ("- ".toList ++ timestamp ++ " ".toList ++ content ++ " ".toList ++ tagsStr) =
      some { timestamp := timestamp, content := content,
             key := keyOf ((tagsOf tagsStr).find? isKeyTag), tags := tagsOf tagsStr,
             source := keyOf ((tagsOf tagsStr).find? isKeyTag) } := by
  have hline : "- ".toList ++ timestamp ++ " ".toList ++ content ++ " ".toList ++ tagsStr =
      '-' :: ' ' :: (timestamp ++ ' ' :: (content ++ ' ' :: tagsStr)) := by
    simp [String.toList]
  rw [hline]
  simp [parseMemoryLine, matchLine, matchClasses_timestamp _ _ hts,
    matchContentTags_exact content tagsStr hc hrun hno]

theorem split_head_takeWhile (sep : Char) (s : Str) :
    ∃ pieces, split sep s = s.takeWhile (fun c => c != sep) :: pieces := by
  induction s with
  | nil => exact ⟨[], rfl⟩
  | cons c cs ih =>
    obtain ⟨pieces, e⟩ := ih
    by_cases hc : c = sep
    · exact ⟨split sep cs, by simp [split, hc, List.takeWhile_cons]⟩
    · exact ⟨pieces, by simp [split, hc, e, List.takeWhile_cons]⟩

theorem takeWhile_append_sep (sep : Char) (x y : Str) :
    (x ++ sep :: y).takeWhile (fun c => c != sep) = x.takeWhile (fun c => c != sep) := by
  induction x with
  | nil => simp [List.takeWhile_cons]
  | cons c cs ih =>
    by_cases hc : c = sep
    · simp [List.takeWhile_cons, hc]
    · simp [List.takeWhile_cons, hc, ih]

theorem generateTags_no_lineTerminator (toLowerCase : Str → Str) (value : Str) :
    ∀ c ∈ " #".toList ++ generateTags toLowerCase value ++ " #评分:8 #有效期:长期".toList,
      isLineTerminator c = false := by
  have h := generateTags_cases toLowerCase value
  simp only [List.mem_cons, List.mem_singleton, List.not_mem_nil, or_false] at h
  rcases h with h | h | h | h | h | h | h | h <;> rw [h] <;> decide

/-- C17: for every clock reading that renders as `YYYY/MM/DD HH:MM` and every
content `a` + ` #` + `w`... without line terminator, where `a` holds no space
followed by `#` and a word character and `w` is an ASCII letter, digit or
underscore, decoding the written line succeeds with content `a`, a strict
initial part of the original content, and with first tag the `#`-token of the
content (from its `#` up to the next space).  The content `fix #123 issue`
decodes to content `fix` with first tag `#123`. -/
theorem content_truncation (toLowerCase : Str → Str) (now : Clock) (a rest : Str) (w : Char)
    (hts : isTimestamp (formatTimestamp now) = true)
    (hno : ∀ before after c, a = before ++ ' ' :: '#' :: c :: after → isWord c = false)
    (hw : isWord w = true)
    (hline : ∀ c ∈ a ++ " #".toList ++ w :: rest, isLineTerminator c = false) :
    (∃ r, parseMemoryLine (formatMemoryLine toLowerCase now (a ++ " #".toList ++ w :: rest)) =
        some r ∧
      r.content = a ∧ a.length < (a ++ " #".toList ++ w :: rest).length ∧
      r.tags.head? = some ('#' :: (w :: rest).takeWhile (fun c => c != ' '))) ∧
    (parseMemoryLine (formatMemoryLine asciiLower sampleClock "fix #123 issue".toList)).map
        (fun r => (r.content, r.tags.head?)) = some ("fix".toList, some "#123".toList) := by
  refine ⟨?_, by decide⟩
  have hline1 : ∀ c, (c ∈ a ∨ c = ' ' ∨ c = '#' ∨ c = w ∨ c ∈ rest) →
      isLineTerminator c = false := by
    intro c hc
    apply hline
    simp only [String.toList, List.mem_append, List.mem_cons, List.mem_singleton,
      List.not_mem_nil, or_false]
    tauto
  have hgt := generateTags_no_lineTerminator toLowerCase (a ++ " #".toList ++ w :: rest)
  have hshape : formatMemoryLine toLowerCase now (a ++ " #".toList ++ w :: rest) =
      "- ".toList ++ formatTimestamp now ++ " ".toList ++ a ++ " ".toList ++
      ('#' :: w :: (rest ++ ' ' :: ("#".toList ++
        generateTags toLowerCase (a ++ " #".toList ++ w :: rest) ++
        " #评分:8 #有效期:长期".toList))) := by
    simp [formatMemoryLine, String.toList]
  have hrun : matchTagRun (' ' :: '#' :: w :: (rest ++ ' ' :: ("#".toList ++
      generateTags toLowerCase (a ++ " #".toList ++ w :: rest) ++
      " #评分:8 #有效期:长期".toList))) = true := by
    refine (matchTagRun_iff _).2 ⟨w, _, rfl, hw, ?_⟩
    intro c hc
    rcases List.mem_append.1 hc with h1 | h1
    · exact hline1 c (Or.inr (Or.inr (Or.inr (Or.inr h1))))
    · apply hgt
      simpa [String.toList] using h1
  rw [hshape, parseMemoryLine_exact _ _ _ hts (fun c hc => hline1 c (Or.inl hc)) hrun hno]
  refine ⟨_, rfl, by simp, ?_⟩
  obtain ⟨pieces, e⟩ := split_head_takeWhile ' ' ('#' :: w :: (rest ++ ' ' :: ("#".toList ++
      generateTags toLowerCase (a ++ " #".toList ++ w :: rest) ++
      " #评分:8 #有效期:长期".toList)))
  have e2 : ('#' :: w :: (rest ++ ' ' :: ("#".toList ++
      generateTags toLowerCase (a ++ " #".toList ++ w :: rest) ++
      " #评分:8 #有效期:长期".toList))).takeWhile (fun c => c != ' ') =
      '#' :: (w :: rest).takeWhile (fun c => c != ' ') := by
    have := takeWhile_append_sep ' ' ('#' :: w :: rest) ("#".toList ++
      generateTags toLowerCase (a ++ " #".toList ++ w :: rest) ++
      " #评分:8 #有效期:长期".toList)
    rw [List.cons_append, List.cons_append] at this
    rw [this, List.takeWhile_cons]
    simp
  rw [e2] at e
  simp only [tagsOf, e]
  simp [List.filter_cons, startsWith, List.isPrefixOf]

/-- The truncation at content `fix #123 issue`, written at 14:30 on 31 May 2025. -/
theorem content_truncation_witness :
    (∃ r, parseMemoryLine (formatMemoryLine asciiLower sampleClock
        ("fix".toList ++ " #".toList ++ '1' :: "23 issue".toList)) = some r ∧
      r.content = "fix".toList ∧
      "fix".toList.length < ("fix".toList ++ " #".toList ++ '1' :: "23 issue".toList).length ∧
      r.tags.head? = some ('#' :: ('1' :: "23 issue".toList).takeWhile (fun c => c != ' '))) ∧
    (parseMemoryLine (formatMemoryLine asciiLower sampleClock "fix #123 issue".toList)).map
        (fun r => (r.content, r.tags.head?)) = some ("fix".toList, some "#123".toList) :=
  content_truncation asciiLower sampleClock "fix".toList "23 issue".toList '1'
    (by decide)
    (by
      intro before after c h
      have h1 : includes "fix".toList [' '] = true := by
        rw [includes_singleton, h]; simp
      exact absurd h1 (by decide))
    (by decide) (by decide)

/-! ## The key clause of the matcher -/

/-- C18: with a lower-casing that leaves a leading `#` in place, for every
decoded record whose key comes from a qualifying tag and every query,
`matchesMemory` holds exactly when the lower-cased query occurs in the
lower-cased content or in some lower-cased tag (the key clause adds nothing);
for every decoded record without a qualifying tag, `matchesMemory` holds for
the query `unknown`, as on the line `- 2025/05/31 14:30 note #AI #评分:8`, where
neither the content nor a tag holds `unknown`. -/
theorem key_clause (toLowerCase : Str → Str)
    (hhash : ∀ s, toLowerCase ('#' :: s) = '#' :: toLowerCase s)
    (line : Str) (r : MemoryRecord) (h : parseMemoryLine line = some r) :
    (∀ t, r.tags.find? isKeyTag = some t → ∀ query,
      (matchesMemory toLowerCase r query = true ↔
        (toLowerCase query <:+: toLowerCase r.content ∨
         ∃ tag ∈ r.tags, toLowerCase query <:+: toLowerCase tag))) ∧
    (r.tags.find? isKeyTag = none → r.key = "unknown".toList ∧
      matchesMemory toLowerCase r "unknown".toList = true) ∧
    ((parseMemoryLine "- 2025/05/31 14:30 note #AI #评分:8".toList).map
        (fun m => (m.content, m.key, m.tags, matchesMemory asciiLower m "unknown".toList)) =
      some ("note".toList, "unknown".toList, ["#AI".toList, "#评分:8".toList], true) ∧
     includes (asciiLower "note".toList) (asciiLower "unknown".toList) = false ∧
     includes (asciiLower "#AI".toList) (asciiLower "unknown".toList) = false ∧
     includes (asciiLower "#评分:8".toList) (asciiLower "unknown".toList) = false) := by
  obtain ⟨tagsStr, -, htags, hkey, -⟩ := parseMemoryLine_some line r h
  refine ⟨?_, ?_, by decide⟩
  · intro t ht query
    have hmem : t ∈ r.tags := List.mem_of_find?_eq_some ht
    obtain ⟨name, rfl⟩ := tagsOf_mem tagsStr t (htags ▸ hmem)
    have hk : r.key = name := by rw [hkey, ht]; rfl
    simp only [matchesMemory, Bool.or_eq_true, List.any_eq_true, includes_iff, or_assoc]
    constructor
    · rintro (h1 | h2 | h3)
      · exact Or.inl h1
      · right
        refine ⟨'#' :: name, hmem, ?_⟩
        rw [hhash, ← hk]
        exact h2.trans (List.suffix_cons _ _).isInfix
      · exact Or.inr h3
    · rintro (h1 | h3)
      · exact Or.inl h1
      · exact Or.inr (Or.inr h3)
  · intro hnone
    have hk : r.key = "unknown".toList := by rw [hkey, hnone]; rfl
    refine ⟨hk, ?_⟩
    simp only [matchesMemory, Bool.or_eq_true, List.any_eq_true, includes_iff]
    left; right
    rw [hk]

/-- The key clause on the record of `- 2025/05/31 14:30 note #frontend #评分:8 #有效期:长期`. -/
theorem key_clause_witness :
    (∀ s, asciiLower ('#' :: s) = '#' :: asciiLower s) ∧
    parseMemoryLine "- 2025/05/31 14:30 note #frontend #评分:8 #有效期:长期".toList =
      some sampleRecord ∧
    sampleRecord.tags.find? isKeyTag = some "#frontend".toList ∧
    (∀ query,
      (matchesMemory asciiLower sampleRecord query = true ↔
        (asciiLower query <:+: asciiLower sampleRecord.content ∨
         ∃ tag ∈ sampleRecord.tags, asciiLower query <:+: asciiLower tag))) :=
  ⟨fun _ => rfl, by decide, by decide,
   (key_clause asciiLower (fun _ => rfl)
      "- 2025/05/31 14:30 note #frontend #评分:8 #有效期:长期".toList sampleRecord
      (by decide)).1 "#frontend".toList (by decide)⟩

/-! ## Lines that do not decode -/

theorem split_of_not_mem (sep : Char) (s : Str) (h : sep ∉ s) : split sep s = [s] := by
  induction s with
  | nil => rfl
  | cons c cs ih =>
    have hc : c ≠ sep := fun e => h (by simp [e])
    have hcs : sep ∉ cs := fun e => h (by simp [e])
    simp [split, hc, ih hcs]

theorem split_append_sep (sep : Char) (s x : Str) (h : sep ∉ s) :
    split sep (s ++ sep :: x) = s :: split sep x := by
  induction s with
  | nil => simp [split]
  | cons c cs ih =>
    have hc : c ≠ sep := fun e => h (by simp [e])
    have hcs : sep ∉ cs := fun e => h (by simp [e])
    simp [split, hc, ih hcs]

theorem split_join (sep : Char) (pieces : List Str) (hne : pieces ≠ [])
    (h : ∀ p ∈ pieces, sep ∉ p) : split sep (join [sep] pieces) = pieces := by
  induction pieces with
  | nil => exact absurd rfl hne
  | cons p rest ih =>
    cases rest with
    | nil => exact split_of_not_mem sep p (h p (by simp))
    | cons q rest1 =>
      have hq := ih (by simp) (fun x hx => h x (List.mem_cons_of_mem _ hx))
      rw [join, List.append_assoc, List.singleton_append,
        split_append_sep sep p _ (h p (by simp)), hq]

theorem join_split (sep : Char) (s : Str) : join [sep] (split sep s) = s := by
  induction s with
  | nil => rfl
  | cons c cs ih =>
    obtain ⟨piece, pieces, e, -⟩ := split_head_initial sep cs
    by_cases hc : c = sep
    · subst hc
      rw [e] at ih
      simp only [split, if_true, e, join, List.nil_append, List.singleton_append, ih]
    · rw [e] at ih
      simp only [split, hc, if_false, e]
      cases pieces with
      | nil =>
        simp only [join] at ih ⊢
        rw [ih]
      | cons q qs =>
        simp only [join] at ih ⊢
        rw [← ih]
        simp

/-- C12: a line without line feed that does not start with `- `, or that
`parseMemoryLine` rejects, put in as an extra line at any line boundary of the
store, becomes one more line of the split and leaves the result of
`getAllMemories` unchanged for every query; the call returns and does not
fail. -/
theorem malformed_line_unobservable (toLowerCase : Str → Str) (content query m : Str)
    (i : Nat) (hm : '\n' ∉ m)
    (hbad : startsWith m "- ".toList = false ∨ parseMemoryLine m = none) :
    split '\n' (insertLine i m content) =
      (split '\n' content).take i ++ m :: (split '\n' content).drop i ∧
    getAllMemories toLowerCase (.readable (insertLine i m content)) query =
      getAllMemories toLowerCase (.readable content) query ∧
    ∃ result, getAllMemories toLowerCase (.readable (insertLine i m content)) query =
      .ok result := by
  have hsplit : split '\n' (insertLine i m content) =
      (split '\n' content).take i ++ m :: (split '\n' content).drop i := by
    unfold insertLine
    apply split_join '\n' _ (by simp)
    intro p hp
    rcases List.mem_append.1 hp with h1 | h1
    · exact split_no_sep _ _ _ (List.mem_of_mem_take h1)
    · rcases List.mem_cons.1 h1 with rfl | h2
      · exact hm
      · exact split_no_sep _ _ _ (List.mem_of_mem_drop h2)
  have hlines : (((split '\n' content).take i ++ m :: (split '\n' content).drop i).filter
      (fun l => startsWith l "- ".toList)).filterMap parseMemoryLine =
      ((split '\n' content).filter (fun l => startsWith l "- ".toList)).filterMap
        parseMemoryLine := by
    conv_rhs => rw [← List.take_append_drop i (split '\n' content)]
    rw [List.filter_append, List.filter_append, List.filterMap_append, List.filterMap_append]
    congr 1
    rcases hbad with h1 | h1
    · rw [List.filter_cons, h1]
      rfl
    · by_cases h2 : startsWith m "- ".toList = true
      · rw [List.filter_cons, if_pos h2, List.filterMap_cons_none h1]
      · rw [List.filter_cons, if_neg h2]
  have heq : getAllMemories toLowerCase (.readable (insertLine i m content)) query =
      getAllMemories toLowerCase (.readable content) query := by
    simp only [getAllMemories, readMemories, pathExists, readFile, if_true, scanLines_eq,
      List.nil_append, hsplit, hlines]
  refine ⟨hsplit, heq, ?_⟩
  rw [heq]
  simp only [getAllMemories, readMemories, pathExists, readFile, if_true]
  exact ⟨_, rfl⟩

/-- The malformed line `- not a record` put in before line 2 of `sampleStore`. -/
theorem malformed_line_unobservable_witness :
    split '\n' (insertLine 2 "- not a record".toList sampleStore) =
      (split '\n' sampleStore).take 2 ++
        "- not a record".toList :: (split '\n' sampleStore).drop 2 ∧
    getAllMemories asciiLower (.readable (insertLine 2 "- not a record".toList sampleStore))
        "git".toList =
      getAllMemories asciiLower (.readable sampleStore) "git".toList ∧
    ∃ result, getAllMemories asciiLower
      (.readable (insertLine 2 "- not a record".toList sampleStore)) "git".toList =
      .ok result :=
  malformed_line_unobservable asciiLower sampleStore "git".toList "- not a record".toList 2
    (by decide) (Or.inr (by decide))

/-! ## The review-rule scenario -/

theorem ite_mem_char {p : Prop} [Decidable p] {a b : Char} {l : List Char}
    (ha : a ∈ l) (hb : b ∈ l) : (if p then a else b) ∈ l := by
  split <;> assumption

theorem digitChar_mem (d : Nat) : Nat.digitChar d ∈ "0123456789abcdef*".toList := by
  unfold Nat.digitChar
  repeat' apply ite_mem_char
  all_goals decide

theorem toDigitsCore_chars (f n : Nat) (acc : List Char)
    (h : ∀ c ∈ acc, c ∈ "0123456789abcdef*".toList) :
    ∀ c ∈ Nat.toDigitsCore 10 f n acc, c ∈ "0123456789abcdef*".toList := by
  induction f generalizing n acc with
  | zero => simpa [Nat.toDigitsCore] using h
  | succ f ih =>
    have hacc : ∀ c ∈ Nat.digitChar (n % 10) :: acc, c ∈ "0123456789abcdef*".toList := by
      intro c hc
      rcases List.mem_cons.1 hc with rfl | hc
      · exact digitChar_mem _
      · exact h c hc
    simp only [Nat.toDigitsCore]
    split_ifs
    · exact hacc
    · exact ih _ _ hacc

theorem padStart2_natToString_chars (n : Nat) :
    ∀ c ∈ padStart2 (natToString n), c ∈ "0123456789abcdef*/: ".toList := by
  intro c hc
  unfold padStart2 at hc
  rcases List.mem_append.1 hc with h | h
  · rw [(List.mem_replicate.1 h).2]
    decide
  · have hsub : ∀ x ∈ "0123456789abcdef*".toList, x ∈ "0123456789abcdef*/: ".toList := by
      decide
    exact hsub c (toDigitsCore_chars _ _ [] (by simp) c h)

theorem natToString_chars (n : Nat) :
    ∀ c ∈ natToString n, c ∈ "0123456789abcdef*/: ".toList := by
  intro c h
  have hsub : ∀ x ∈ "0123456789abcdef*".toList, x ∈ "0123456789abcdef*/: ".toList := by
    decide
  exact hsub c (toDigitsCore_chars _ _ [] (by simp) c h)

/-- Every character of a rendered timestamp is a digit character, `/`, `:` or
a space. -/
theorem formatTimestamp_chars (now : Clock) :
    ∀ c ∈ formatTimestamp now, c ∈ "0123456789abcdef*/: ".toList := by
  intro c hc
  unfold formatTimestamp at hc
  simp only [List.mem_append] at hc
  rcases hc with (((((((h | h) | h) | h) | h) | h) | h) | h) | h
  · exact natToString_chars _ c h
  · revert h; generalize c = x; revert x; decide
  · exact padStart2_natToString_chars _ c h
  · revert h; generalize c = x; revert x; decide
  · exact padStart2_natToString_chars _ c h
  · revert h; generalize c = x; revert x; decide
  · exact padStart2_natToString_chars _ c h
  · revert h; generalize c = x; revert x; decide
  · exact padStart2_natToString_chars _ c h

theorem not_includes_of_not_mem (s sub : Str) (x : Char) (hx : x ∈ sub) (hs : x ∉ s) :
    includes s sub = false := by
  cases h : includes s sub with
  | false => rfl
  | true =>
    exfalso
    exact hs (((includes_iff s sub).1 h).subset hx)

/-- C15 as amended: for the content `每个PR至少需要2个人review`, lower-cased by
the runtime to `每个pr至少需要2个人review`, and every clock reading, no trigger
matches: the only derived tag is the fallback `#其他`, the written line holds
neither `#流程管理` nor `#工具使用`, and it ends with the rating tag `#评分:8`
and the retention tag `#有效期:长期`. -/
theorem scenario_tags (toLowerCase : Str → Str) (now : Clock)
    (hlower : toLowerCase "每个PR至少需要2个人review".toList = "每个pr至少需要2个人review".toList) :
    generateTagList toLowerCase "每个PR至少需要2个人review".toList = [] ∧
    generateTags toLowerCase "每个PR至少需要2个人review".toList = "#其他".toList ∧
    includes (formatMemoryLine toLowerCase now "每个PR至少需要2个人review".toList) "#流程管理".toList = false ∧
    includes (formatMemoryLine toLowerCase now "每个PR至少需要2个人review".toList) "#工具使用".toList = false ∧
    " #评分:8 #有效期:长期".toList <:+ formatMemoryLine toLowerCase now "每个PR至少需要2个人review".toList := by
  have hlist : generateTagList toLowerCase "每个PR至少需要2个人review".toList = [] := by
    simp only [generateTagList, hlower]
    decide
  have htags : generateTags toLowerCase "每个PR至少需要2个人review".toList = "#其他".toList := by
    simp only [generateTags, hlist]
    decide
  have hmem : ∀ x, x ∈ formatMemoryLine toLowerCase now "每个PR至少需要2个人review".toList →
      x ∈ "0123456789abcdef*/: ".toList ∨
      x ∈ "- 每个PR至少需要2个人review #其他 #评分:8 #有效期:长期".toList := by
    intro x hx
    simp only [formatMemoryLine, htags, List.mem_append] at hx
    rcases hx with (((((h | h) | h) | h) | h) | h) | h
    · right; revert h; generalize x = y; revert y; decide
    · exact Or.inl (formatTimestamp_chars now x h)
    · right; revert h; generalize x = y; revert y; decide
    · right; revert h; generalize x = y; revert y; decide
    · right; revert h; generalize x = y; revert y; decide
    · right; revert h; generalize x = y; revert y; decide
    · right; revert h; generalize x = y; revert y; decide
  refine ⟨hlist, htags, ?_, ?_, ⟨_, rfl⟩⟩
  · apply not_includes_of_not_mem _ _ '流' (by decide)
    intro h
    rcases hmem _ h with h1 | h1 <;> revert h1 <;> decide
  · apply not_includes_of_not_mem _ _ '工' (by decide)
    intro h
    rcases hmem _ h with h1 | h1 <;> revert h1 <;> decide

/-- The amended C15 at 14:30 on 31 May 2025, with the ASCII lower-casing. -/
theorem scenario_tags_witness :
    asciiLower "每个PR至少需要2个人review".toList = "每个pr至少需要2个人review".toList ∧
    generateTagList asciiLower "每个PR至少需要2个人review".toList = [] ∧
    generateTags asciiLower "每个PR至少需要2个人review".toList = "#其他".toList ∧
    includes (formatMemoryLine asciiLower sampleClock "每个PR至少需要2个人review".toList) "#流程管理".toList = false ∧
    includes (formatMemoryLine asciiLower sampleClock "每个PR至少需要2个人review".toList) "#工具使用".toList = false ∧
    " #评分:8 #有效期:长期".toList <:+ formatMemoryLine asciiLower sampleClock "每个PR至少需要2个人review".toList :=
  ⟨by decide, scenario_tags asciiLower sampleClock (by decide)⟩

/-- C15 fails as stated: the line written for `每个PR至少需要2个人review` at 14:30
on 31 May 2025 is `- 2025/05/31 14:30 每个PR至少需要2个人review ##其他 #评分:8 #有效期:长期`,
on which neither `#流程管理` nor `#工具使用` occurs. -/
theorem scenario_no_process_tag :
    formatMemoryLine asciiLower sampleClock "每个PR至少需要2个人review".toList =
      "- 2025/05/31 14:30 每个PR至少需要2个人review ##其他 #评分:8 #有效期:长期".toList ∧
    includes (formatMemoryLine asciiLower sampleClock "每个PR至少需要2个人review".toList) "#流程管理".toList = false ∧
    includes (formatMemoryLine asciiLower sampleClock "每个PR至少需要2个人review".toList) "#工具使用".toList = false := by
  decide

/-! ## Clock readings that render as `YYYY/MM/DD HH:MM` -/

theorem digitChar_isDigit (d : Nat) (h : d < 10) : (Nat.digitChar d).isDigit = true := by
  revert d
  decide

theorem natToString_two (n : Nat) (h : n < 100) :
    ∃ d1 d2, padStart2 (natToString n) = [d1, d2] ∧ d1.isDigit = true ∧ d2.isDigit = true := by
  by_cases h10 : n < 10
  · refine ⟨'0', Nat.digitChar n, ?_, by decide, digitChar_isDigit n h10⟩
    have h0 : n / 10 = 0 := Nat.div_eq_of_lt h10
    simp [padStart2, natToString, Nat.toDigits, Nat.toDigitsCore, h0, Nat.mod_eq_of_lt h10]
  · refine ⟨Nat.digitChar (n / 10), Nat.digitChar (n % 10), ?_,
      digitChar_isDigit _ (by omega), digitChar_isDigit _ (by omega)⟩
    obtain ⟨f, hf⟩ : ∃ f, n = f + 1 := ⟨n - 1, by omega⟩
    have h1 : n / 10 ≠ 0 := by omega
    have h2 : n / 10 / 10 = 0 := by omega
    have h3 : n / 10 % 10 = n / 10 := by omega
    subst hf
    simp [padStart2, natToString, Nat.toDigits, Nat.toDigitsCore, h1, h2, h3]

theorem natToString_four (n : Nat) (hlo : 1000 ≤ n) (hhi : n < 10000) :
    ∃ d1 d2 d3 d4, natToString n = [d1, d2, d3, d4] ∧ d1.isDigit = true ∧
      d2.isDigit = true ∧ d3.isDigit = true ∧ d4.isDigit = true := by
  refine ⟨Nat.digitChar (n / 10 / 10 / 10 % 10), Nat.digitChar (n / 10 / 10 % 10),
    Nat.digitChar (n / 10 % 10), Nat.digitChar (n % 10), ?_,
    digitChar_isDigit _ (by omega), digitChar_isDigit _ (by omega),
    digitChar_isDigit _ (by omega), digitChar_isDigit _ (by omega)⟩
  obtain ⟨f, hf⟩ : ∃ f, n = f + 3 := ⟨n - 3, by omega⟩
  have h1 : n / 10 ≠ 0 := by omega
  have h2 : n / 10 / 10 ≠ 0 := by omega
  have h3 : n / 10 / 10 / 10 ≠ 0 := by omega
  have h4 : n / 10 / 10 / 10 / 10 = 0 := by omega
  subst hf
  simp only [natToString, Nat.toDigits, Nat.toDigitsCore, h1, h2, h3, h4, if_false, if_true]

/-- A clock reading with a four-digit year and two-digit month, day, hour and
minute renders in the shape the pattern of `parseMemoryLine` expects. -/
theorem formatTimestamp_isTimestamp (now : Clock) (hy : 1000 ≤ now.fullYear)
    (hy2 : now.fullYear < 10000) (hm : now.month + 1 < 100) (hd : now.date < 100)
    (hh : now.hours < 100) (hmin : now.minutes < 100) :
    isTimestamp (formatTimestamp now) = true := by
  obtain ⟨y1, y2, y3, y4, ey, hy1, hy2, hy3, hy4⟩ := natToString_four _ hy hy2
  obtain ⟨m1, m2, em, hm1, hm2⟩ := natToString_two _ hm
  obtain ⟨d1, d2, ed, hd1, hd2⟩ := natToString_two _ hd
  obtain ⟨h1, h2, eh, hh1, hh2⟩ := natToString_two _ hh
  obtain ⟨n1, n2, en, hn1, hn2⟩ := natToString_two _ hmin
  simp [formatTimestamp, ey, em, ed, eh, en, isTimestamp, hy1, hy2, hy3, hy4, hm1, hm2, hd1,
    hd2, hh1, hh2, hn1, hn2]

end PromptX
